import Mathlib

/-!
Verification development for the formacheck core: the language-detection
cascade (`detectLanguage` in the formatter utilities) and the minification
engine (`minifyCode` plus the empty-result guard of `handleMinify`).
The TypeScript source is shallowly embedded: strings become `List Char`,
the global regex replaces become explicit left-to-right scanners with the
same match semantics, and `JSON.parse` / `JSON.stringify` become a fueled
recursive-descent parser and a compact serializer over an exact JSON value
model (numbers are kept as their lexical tokens, since IEEE-754 double
rounding and formatting are outside the scope of this embedding; escape
sequences denoting lone UTF-16 surrogates are likewise not representable
in Lean strings and are rejected by the embedded parser).
-/

namespace FormaCheck

/-- The closed language enumeration shared by detector and minifier
(`Language` in `src/types.ts`). -/
inductive Language where
  | json
  | javascript
  | typescript
  | html
  | css
  | xml
  | sql
  | markdown
deriving DecidableEq, Repr

/-- Error taxonomy of the minifier: `syntaxError` models the spec's
`MinifyError::InvalidSyntax` (the `JSON.parse` throw on the JSON path),
`emptyResult` models `MinifyError::EmptyResult` (the `handleMinify` guard),
`transformFailure` models `MinifyError::TransformFailure`. -/
inductive MinifyError where
  | syntaxError
  | emptyResult
  | transformFailure
deriving DecidableEq, Repr

/-- JSON whitespace: the four characters `JSON.parse` skips between tokens. -/
def isJsonWs (c : Char) : Bool :=
  c = ' ' || c = '\t' || c = '\n' || c = '\r'

/-- JavaScript `\s` (the class used by the source regexes and by
`String.prototype.trim`): ASCII whitespace, NBSP, BOM, and the Unicode
space separators and line separators. -/
def isJsWs (c : Char) : Bool :=
  c = ' ' || c = '\t' || c = '\n' || c = '\r' || c = '\x0b' || c = '\x0c' ||
  c = '\u00a0' || c = '\ufeff' || c = '\u1680' || c = '\u2000' ||
  c = '\u2001' || c = '\u2002' || c = '\u2003' || c = '\u2004' ||
  c = '\u2005' || c = '\u2006' || c = '\u2007' || c = '\u2008' ||
  c = '\u2009' || c = '\u200a' || c = '\u2028' || c = '\u2029' ||
  c = '\u202f' || c = '\u205f' || c = '\u3000'

/-- JavaScript line terminators (the characters `.` does not match and the
positions where multiline `^` and the dollar anchor apply). -/
def isLineTerm (c : Char) : Bool :=
  c = '\n' || c = '\r' || c = '\u2028' || c = '\u2029'

/-- Regex word characters `\w` = `[A-Za-z0-9_]`, used by `\b` boundaries. -/
def isWordCh (c : Char) : Bool :=
  (c ≥ 'a' && c ≤ 'z') || (c ≥ 'A' && c ≤ 'Z') || (c ≥ '0' && c ≤ '9') || c = '_'

def isDigitCh (c : Char) : Bool := '0' ≤ c && c ≤ '9'

/-- Remove a maximal trailing run of JS whitespace (`trimEnd`). -/
def trimRightL : List Char → List Char
  | [] => []
  | c :: rest =>
    let r := trimRightL rest
    if r = [] && isJsWs c then [] else c :: r

/-- `String.prototype.trim` on character lists. -/
def trimL (cs : List Char) : List Char :=
  trimRightL (cs.dropWhile isJsWs)

/-! ## The JSON value model and `JSON.parse` -/

/-- IEEE-754 binary64 values produced by `JSON.parse` on number tokens: a
finite value `(-1)^neg * m * 2^e` in canonical form (`m < 2^53`, and
`2^52 ≤ m` unless `e = -1074` or `m = 0`), or an infinity, which decimal
overflow produces.  `NaN` cannot arise from the JSON number grammar. -/
inductive JNum where
  | finite (neg : Bool) (m : Nat) (e : Int)
  | inf (neg : Bool)
deriving DecidableEq, Repr

/-- JSON values as produced by the embedded `JSON.parse`.  Numbers are
IEEE-754 doubles as in JavaScript, strings are decoded character lists,
objects are key-value lists in first-occurrence order with
last-occurrence values (matching JavaScript object assignment). -/
inductive Json where
  | null
  | bool (b : Bool)
  | num (jn : JNum)
  | str (s : List Char)
  | arr (xs : List Json)
  | obj (ms : List (List Char × Json))

instance : Inhabited Json := ⟨Json.null⟩

def isHexCh (c : Char) : Bool :=
  isDigitCh c || ('a' ≤ c && c ≤ 'f') || ('A' ≤ c && c ≤ 'F')

def hexVal (c : Char) : Nat :=
  if isDigitCh c then c.toNat - 48
  else if 'a' ≤ c && c ≤ 'f' then c.toNat - 87
  else c.toNat - 55

def hexDigitCh (n : Nat) : Char :=
  if n < 10 then Char.ofNat (48 + n) else Char.ofNat (87 + n)

/-- Prepend a decoded character to a string-parse result. -/
def consStr (c : Char) : Option (List Char × List Char) →
    Option (List Char × List Char)
  | some (s, r) => some (c :: s, r)
  | none => none

/-- The eight short escapes of a JSON string. -/
def shortEsc (e : Char) : Option Char :=
  if e = '"' then some '"'
  else if e = '\\' then some '\\'
  else if e = '/' then some '/'
  else if e = 'b' then some '\x08'
  else if e = 'f' then some '\x0c'
  else if e = 'n' then some '\n'
  else if e = 'r' then some '\r'
  else if e = 't' then some '\t'
  else none

mutual

/-- Decode a JSON string body after the opening quote, returning the decoded
characters and the input after the closing quote.  Mirrors `JSON.parse`:
raw control characters are rejected, the eight short escapes and `\uXXXX`
(with surrogate-pair combination) are decoded.  Escapes denoting lone
surrogates are rejected (not representable as Lean characters).  Fueled:
every recursive call consumes input first, so fuel `length + 1` decides the
grammar exactly (see `parseStr`). -/
def parseStrF : Nat → List Char → Option (List Char × List Char)
  | 0, _ => none
  | fuel + 1, cs =>
    match cs with
    | [] => none
    | c :: rest =>
      if c = '"' then some ([], rest)
      else if c = '\\' then parseEscF fuel rest
      else if c.toNat < 32 then none
      else consStr c (parseStrF fuel rest)

/-- Decode one escape sequence (the input starts after the backslash) and
continue with the rest of the string body. -/
def parseEscF : Nat → List Char → Option (List Char × List Char)
  | 0, _ => none
  | fuel + 1, cs =>
    match cs with
    | 'u' :: h1 :: h2 :: h3 :: h4 :: rest =>
      if isHexCh h1 && isHexCh h2 && isHexCh h3 && isHexCh h4 then
        let n := 4096 * hexVal h1 + 256 * hexVal h2 + 16 * hexVal h3 + hexVal h4
        if 55296 ≤ n && n ≤ 56319 then
          match rest with
          | '\\' :: 'u' :: g1 :: g2 :: g3 :: g4 :: rest2 =>
            if isHexCh g1 && isHexCh g2 && isHexCh g3 && isHexCh g4 then
              let m := 4096 * hexVal g1 + 256 * hexVal g2 + 16 * hexVal g3 + hexVal g4
              if 56320 ≤ m && m ≤ 57343 then
                consStr (Char.ofNat (65536 + 1024 * (n - 55296) + (m - 56320)))
                  (parseStrF fuel rest2)
              else none
            else none
          | _ => none
        else if 56320 ≤ n && n ≤ 57343 then none
        else consStr (Char.ofNat n) (parseStrF fuel rest)
      else none
    | e :: rest =>
      match shortEsc e with
      | some d => consStr d (parseStrF fuel rest)
      | none => none
    | [] => none

end

/-- The embedded JSON string-body decoder: fuel `length + 1` always
suffices because each fueled call consumes at least one character. -/
def parseStr (cs : List Char) : Option (List Char × List Char) :=
  parseStrF (cs.length + 1) cs

/-- Characters that can occur in a JSON number token (the maximal-munch
alphabet of the number lexer). -/
def isNumCh (c : Char) : Bool :=
  isDigitCh c || c = '-' || c = '+' || c = '.' || c = 'e' || c = 'E'

/-- States of the JSON number acceptor. -/
inductive NumSt where
  | s0
  | sM
  | i0
  | iD
  | f0
  | fD
  | e0
  | e1
  | eD
  | bad
deriving DecidableEq, Repr

/-- One step of the JSON number grammar
`-? (0 | [1-9][0-9]*) (\.[0-9]+)? ([eE][+-]?[0-9]+)?` as a DFA. -/
def numStep : NumSt → Char → NumSt
  | .s0, c =>
    if c = '-' then .sM else if c = '0' then .i0
    else if isDigitCh c then .iD else .bad
  | .sM, c =>
    if c = '0' then .i0 else if isDigitCh c then .iD else .bad
  | .i0, c =>
    if c = '.' then .f0 else if c = 'e' || c = 'E' then .e0 else .bad
  | .iD, c =>
    if isDigitCh c then .iD else if c = '.' then .f0
    else if c = 'e' || c = 'E' then .e0 else .bad
  | .f0, c => if isDigitCh c then .fD else .bad
  | .fD, c =>
    if isDigitCh c then .fD else if c = 'e' || c = 'E' then .e0 else .bad
  | .e0, c =>
    if c = '+' || c = '-' then .e1 else if isDigitCh c then .eD else .bad
  | .e1, c => if isDigitCh c then .eD else .bad
  | .eD, c => if isDigitCh c then .eD else .bad
  | .bad, _ => .bad

def numAccept : NumSt → Bool
  | .i0 | .iD | .fD | .eD => true
  | _ => false

/-- Whether a token is a syntactically valid JSON number. -/
def validNumber (cs : List Char) : Bool :=
  numAccept (cs.foldl numStep .s0)

/-- Value of a digit string, most significant digit first. -/
def digitsVal : List Char → Nat → Nat
  | [], acc => acc
  | c :: r, acc => digitsVal r (10 * acc + (c.toNat - 48))

/-- Strip an optional leading minus sign from a number token. -/
def numSignSplit : List Char → Bool × List Char
  | '-' :: r => (true, r)
  | r => (false, r)

/-- Split an optional fraction part `.digits` off a number token rest. -/
def numFracSplit : List Char → List Char × List Char
  | '.' :: r => (r.takeWhile isDigitCh, r.dropWhile isDigitCh)
  | r => ([], r)

/-- Value of an optional exponent part `[eE][+-]?digits`. -/
def numExpVal : List Char → Int
  | _ :: '-' :: d => -(digitsVal d 0 : Int)
  | _ :: '+' :: d => (digitsVal d 0 : Int)
  | _ :: d => (digitsVal d 0 : Int)
  | [] => 0

/-- Decompose a grammatical number token: the token denotes
`(-1)^neg * dd * 10^ex` for the returned `(neg, dd, ex)`. -/
def numParts (tok : List Char) : Bool × Nat × Int :=
  let s := numSignSplit tok
  let ip := s.2.takeWhile isDigitCh
  let f := numFracSplit (s.2.dropWhile isDigitCh)
  (s.1, digitsVal (ip ++ f.1) 0, numExpVal f.2 - (f.1.length : Int))

/-- Powers of two by a 64-bit-chunked product loop. -/
def pow2F : Nat → Nat → Nat → Nat
  | 0, _, acc => acc
  | f + 1, ex, acc =>
    if ex = 0 then acc
    else if 64 ≤ ex then pow2F f (ex - 64) (acc * 18446744073709551616)
    else pow2F f (ex - 1) (acc * 2)

def pow2 (ex : Nat) : Nat := pow2F (ex + 1) ex 1

/-- Powers of ten by a 16-digit-chunked product loop. -/
def pow10F : Nat → Nat → Nat → Nat
  | 0, _, acc => acc
  | f + 1, ex, acc =>
    if ex = 0 then acc
    else if 16 ≤ ex then pow10F f (ex - 16) (acc * 10000000000000000)
    else pow10F f (ex - 1) (acc * 10)

def pow10 (ex : Nat) : Nat := pow10F (ex + 1) ex 1

/-- Floor of the base-two logarithm, by a 64-bit-chunked division loop. -/
def natLog2F : Nat → Nat → Nat → Nat
  | 0, _, acc => acc
  | f + 1, n, acc =>
    if n < 2 then acc
    else if 18446744073709551616 ≤ n then
      natLog2F f (n / 18446744073709551616) (acc + 64)
    else natLog2F f (n / 2) (acc + 1)

def natLog2 (n : Nat) : Nat := natLog2F n n 0

/-- Numerator and denominator of `a / (b * 2^e)` as natural numbers. -/
def scaled (a b : Nat) (e : Int) : Nat × Nat :=
  if 0 ≤ e then (a, b * pow2 e.toNat) else (a * pow2 (-e).toNat, b)

/-- Find the binary exponent `e` with `a / (b * 2^e)` in `[2^52, 2^53)`,
by local search from a logarithm-based first guess. -/
def findExp : Nat → Nat → Nat → Int → Int
  | 0, _, _, e => e
  | f + 1, a, b, e =>
    let p := scaled a b e
    if p.1 / p.2 < 4503599627370496 then findExp f a b (e - 1)
    else if 9007199254740992 ≤ p.1 / p.2 then findExp f a b (e + 1)
    else e

/-- Round the positive rational `a / b` to the nearest IEEE-754 binary64
value (ties to even), with gradual underflow to subnormals or zero and
overflow to infinity: the conversion `JSON.parse` applies to the decimal
value of a number token. -/
def mkDouble (neg : Bool) (a b : Nat) : JNum :=
  let e1 := findExp 64 a b ((natLog2 a : Int) - (natLog2 b : Int) - 52)
  let e2 := if e1 < -1074 then (-1074 : Int) else e1
  let p := scaled a b e2
  let q := p.1 / p.2
  let r := p.1 % p.2
  let q2 := if p.2 < 2 * r then q + 1
            else if 2 * r = p.2 && q % 2 = 1 then q + 1 else q
  if q2 = 0 then JNum.finite neg 0 0
  else if q2 = 9007199254740992 then
    (if (971 : Int) < e2 + 1 then JNum.inf neg
     else JNum.finite neg 4503599627370496 (e2 + 1))
  else if (971 : Int) < e2 then JNum.inf neg
  else JNum.finite neg q2 e2

/-- IEEE-754 double value of a grammatical JSON number token. -/
def tokToDouble (tok : List Char) : JNum :=
  let p := numParts tok
  if p.2.1 = 0 then JNum.finite p.1 0 0
  else if 0 ≤ p.2.2 then mkDouble p.1 (p.2.1 * pow10 p.2.2.toNat) 1
  else mkDouble p.1 p.2.1 (pow10 (-p.2.2).toNat)

/-- Lex a number at the head of the input: take the maximal run of
number-alphabet characters, validate it against the grammar, and convert
it to its IEEE-754 double value as `JSON.parse` does. -/
def parseNum (cs : List Char) : Option (Json × List Char) :=
  let tok := cs.takeWhile isNumCh
  if validNumber tok then
    some (Json.num (tokToDouble tok), cs.dropWhile isNumCh)
  else none

/-- Insert a key into an object member list the way JavaScript property
assignment does: an existing key keeps its position and gets the new
value, a new key is appended. -/
def insertMember : List (List Char × Json) → List Char → Json →
    List (List Char × Json)
  | [], k, v => [(k, v)]
  | (k', v') :: rest, k, v =>
    if k' = k then (k', v) :: rest else (k', v') :: insertMember rest k v

/-- Resolve duplicate keys of a parsed member list (last value wins, first
position kept), as `JSON.parse` does via repeated property assignment. -/
def normMembers (raw : List (List Char × Json)) : List (List Char × Json) :=
  raw.foldl (fun acc kv => insertMember acc kv.1 kv.2) []

mutual

/-- Fueled recursive-descent parser for a JSON value, mirroring
`JSON.parse`: skip JSON whitespace, dispatch on the first character. -/
def parseValue : Nat → List Char → Option (Json × List Char)
  | 0, _ => none
  | fuel + 1, cs =>
    match cs.dropWhile isJsonWs with
    | [] => none
    | c :: rest =>
      if c = '{' then
        match parseMembers fuel rest with
        | some (ms, r) => some (Json.obj (normMembers ms), r)
        | none => none
      else if c = '[' then
        match parseElems fuel rest with
        | some (xs, r) => some (Json.arr xs, r)
        | none => none
      else if c = '"' then
        match parseStr rest with
        | some (s, r) => some (Json.str s, r)
        | none => none
      else if c = 't' then
        match rest with
        | 'r' :: 'u' :: 'e' :: r => some (Json.bool true, r)
        | _ => none
      else if c = 'f' then
        match rest with
        | 'a' :: 'l' :: 's' :: 'e' :: r => some (Json.bool false, r)
        | _ => none
      else if c = 'n' then
        match rest with
        | 'u' :: 'l' :: 'l' :: r => some (Json.null, r)
        | _ => none
      else if c = '-' || isDigitCh c then parseNum (c :: rest)
      else none

/-- Parse object members after the opening brace, up to and including the
closing brace; returns the raw member list (duplicates unresolved). -/
def parseMembers : Nat → List Char → Option (List (List Char × Json) × List Char)
  | 0, _ => none
  | fuel + 1, cs =>
    match cs.dropWhile isJsonWs with
    | [] => none
    | c :: rest =>
      if c = '}' then some ([], rest)
      else if c = '"' then
        match parseStr rest with
        | some (k, r1) =>
          match r1.dropWhile isJsonWs with
          | c2 :: r3 =>
            if c2 = ':' then
              match parseValue fuel r3 with
              | some (v, r4) =>
                match parseMembersTail fuel r4 with
                | some (ms, r5) => some ((k, v) :: ms, r5)
                | none => none
              | none => none
            else none
          | [] => none
        | none => none
      else none

/-- Continue an object after a member: expect `,` and another member, or
the closing brace. -/
def parseMembersTail : Nat → List Char →
    Option (List (List Char × Json) × List Char)
  | 0, _ => none
  | fuel + 1, cs =>
    match cs.dropWhile isJsonWs with
    | [] => none
    | c :: rest =>
      if c = '}' then some ([], rest)
      else if c = ',' then
        match rest.dropWhile isJsonWs with
        | c2 :: r2 =>
          if c2 = '"' then
            match parseStr r2 with
            | some (k, r3) =>
              match r3.dropWhile isJsonWs with
              | c3 :: r4 =>
                if c3 = ':' then
                  match parseValue fuel r4 with
                  | some (v, r5) =>
                    match parseMembersTail fuel r5 with
                    | some (ms, r6) => some ((k, v) :: ms, r6)
                    | none => none
                  | none => none
                else none
              | [] => none
            | none => none
          else none
        | [] => none
      else none

/-- Parse array elements after the opening bracket, up to and including the
closing bracket. -/
def parseElems : Nat → List Char → Option (List Json × List Char)
  | 0, _ => none
  | fuel + 1, cs =>
    match cs.dropWhile isJsonWs with
    | [] => none
    | c :: rest =>
      if c = ']' then some ([], rest)
      else
        match parseValue fuel (c :: rest) with
        | some (v, r) =>
          match parseElemsTail fuel r with
          | some (xs, r2) => some (v :: xs, r2)
          | none => none
        | none => none

/-- Continue an array after an element: expect `,` and another element, or
the closing bracket. -/
def parseElemsTail : Nat → List Char → Option (List Json × List Char)
  | 0, _ => none
  | fuel + 1, cs =>
    match cs.dropWhile isJsonWs with
    | [] => none
    | c :: rest =>
      if c = ']' then some ([], rest)
      else if c = ',' then
        match parseValue fuel rest with
        | some (v, r) =>
          match parseElemsTail fuel r with
          | some (xs, r2) => some (v :: xs, r2)
          | none => none
        | none => none
      else none

end

/-- The embedded `JSON.parse`: parse one value, then require that only JSON
whitespace remains.  The fuel `length + 1` is sufficient for every input
(each recursive call consumes at least one character first). -/
def parseJsonL (cs : List Char) : Option Json :=
  match parseValue (cs.length + 1) cs with
  | some (v, rest) => if rest.dropWhile isJsonWs = [] then some v else none
  | none => none

def parseJson (s : String) : Option Json := parseJsonL s.data

/-! ## `JSON.stringify` (compact form, as on the minifier's JSON path) -/

/-- Escape one character of a JSON string the way `JSON.stringify` does:
quote, backslash and the five short control escapes, `\u00XX` for other
control characters, everything else verbatim. -/
def escChar (c : Char) : List Char :=
  if c = '"' then ['\\', '"']
  else if c = '\\' then ['\\', '\\']
  else if c = '\x08' then ['\\', 'b']
  else if c = '\x0c' then ['\\', 'f']
  else if c = '\n' then ['\\', 'n']
  else if c = '\r' then ['\\', 'r']
  else if c = '\t' then ['\\', 't']
  else if c.toNat < 32 then
    ['\\', 'u', '0', '0', hexDigitCh (c.toNat / 16), hexDigitCh (c.toNat % 16)]
  else [c]

def escStr : List Char → List Char
  | [] => []
  | c :: rest => escChar c ++ escStr rest

def sKey (k : List Char) : List Char := '"' :: escStr k ++ ['"']

/-- Decimal digit characters of a natural number, most significant first. -/
def natDigitsF : Nat → Nat → List Char → List Char
  | 0, _, acc => acc
  | f + 1, x, acc =>
    if x < 10 then Char.ofNat (48 + x % 10) :: acc
    else natDigitsF f (x / 10) (Char.ofNat (48 + x % 10) :: acc)

def natDigits (x : Nat) : List Char := natDigitsF (x + 1) x []

/-- Smallest `k` with `a4 < acc * 10^k` (the accumulator carries
`acc * 10^k`): finds the decimal exponent of a positive rational. -/
def decExpLoop : Nat → Nat → Nat → Nat → Nat
  | 0, _, _, k => k
  | f + 1, a4, acc, k =>
    if a4 < acc then k else decExpLoop f a4 (acc * 10) (k + 1)

/-- Whether the decimal `c * 10^i` rounds back to exactly the finite
double `(-1)^neg * m * 2^e`: the round-trip test of the shortest-digits
search in the ECMAScript number-to-string algorithm. -/
def candOk (neg : Bool) (m : Nat) (e : Int) (c : Nat) (i : Int) : Bool :=
  0 < c &&
  decide ((if 0 ≤ i then mkDouble neg (c * pow10 i.toNat) 1
           else mkDouble neg c (pow10 (-i).toNat)) = JNum.finite neg m e)

/-- Search, by increasing digit count `k`, for the shortest correctly
rounded decimal that round-trips to the double `(-1)^neg * m * 2^e` of
exact value `a / b` and decimal exponent `n`; of the two candidate
floors, the closer round-tripping one wins (ties to even).  Seventeen
significant digits always round-trip a binary64 value. -/
def shortestGo (neg : Bool) (m : Nat) (e : Int) (a b : Nat) (n : Int) :
    Nat → Nat → Nat × Int
  | 0, k => (0, n - (k : Int))
  | f + 1, k =>
    let i : Int := n - (k : Int)
    let nn := if i < 0 then a * pow10 (-i).toNat else a
    let dd := if 0 ≤ i then b * pow10 i.toNat else b
    let c1 := nn / dd
    let r := nn % dd
    let ok1 := candOk neg m e c1 i
    let ok2 := candOk neg m e (c1 + 1) i
    if ok1 && ok2 then
      (if 2 * r < dd then (c1, i)
       else if dd < 2 * r then (c1 + 1, i)
       else if c1 % 2 = 0 then (c1, i) else (c1 + 1, i))
    else if ok1 then (c1, i)
    else if ok2 then (c1 + 1, i)
    else if f = 0 then (if 2 * r ≤ dd then (c1, i) else (c1 + 1, i))
    else shortestGo neg m e a b n f (k + 1)

/-- Strip trailing zero digits, moving them into the power-of-ten scale. -/
def stripTz : Nat → Nat → Int → Nat × Int
  | 0, s, i => (s, i)
  | f + 1, s, i =>
    if s % 10 = 0 && 10 ≤ s then stripTz f (s / 10) (i + 1) else (s, i)

/-- Exponent suffix of ECMAScript exponential notation (after the `e`). -/
def expSuffix (n : Int) : List Char :=
  if 0 ≤ n - 1 then '+' :: natDigits (n - 1).toNat
  else '-' :: natDigits (1 - n).toNat

/-- Lay out shortest digits `s` with decimal exponent `n` (the value is
`0.s * 10^n`) the way the ECMAScript number-to-string algorithm does:
plain integer, fixed-point, or exponential notation. -/
def fmtBody (s : List Char) (n : Int) : List Char :=
  if (s.length : Int) ≤ n ∧ n ≤ 21 then
    s ++ List.replicate (n - (s.length : Int)).toNat '0'
  else if 0 < n ∧ n ≤ 21 then s.take n.toNat ++ '.' :: s.drop n.toNat
  else if -6 < n ∧ n ≤ 0 then
    '0' :: '.' :: (List.replicate (-n).toNat '0' ++ s)
  else
    match s with
    | [] => 'e' :: expSuffix n
    | [d] => d :: 'e' :: expSuffix n
    | d :: ds => d :: '.' :: (ds ++ 'e' :: expSuffix n)

def fmtDouble (neg : Bool) (s : List Char) (n : Int) : List Char :=
  if neg then '-' :: fmtBody s n else fmtBody s n

/-- Serialization of a double on the JSON path: a finite value prints via
the ECMAScript number-to-string algorithm (shortest round-tripping
digits); a nonfinite value prints as `null`, as `JSON.stringify` does. -/
def jnumToStr : JNum → List Char
  | .inf _ => 'n' :: ['u', 'l', 'l']
  | .finite neg m e =>
    if m = 0 then ['0']
    else
      let a := if 0 ≤ e then m * pow2 e.toNat else m
      let b := if 0 ≤ e then 1 else pow2 (-e).toNat
      let n : Int := (decExpLoop 800 (a * pow10 400) b 0 : Int) - 400
      let si := shortestGo neg m e a b n 18 1
      let si2 := stripTz 20 si.1 si.2
      let ds := natDigits si2.1
      fmtDouble neg ds ((ds.length : Int) + si2.2)

mutual

/-- Compact serialization of a JSON value: `JSON.stringify(v)` with no
spacing; numbers print via the ECMAScript number-to-string algorithm,
nonfinite number values as `null`. -/
def sJson : Json → List Char
  | .null => 'n' :: ['u', 'l', 'l']
  | .bool true => 't' :: ['r', 'u', 'e']
  | .bool false => 'f' :: ['a', 'l', 's', 'e']
  | .num jn => jnumToStr jn
  | .str s => sKey s
  | .arr xs => '[' :: sElems xs ++ [']']
  | .obj ms => '{' :: sMembers ms ++ ['}']

def sElems : List Json → List Char
  | [] => []
  | x :: xs => sJson x ++ sElemsTail xs

def sElemsTail : List Json → List Char
  | [] => []
  | x :: xs => ',' :: sJson x ++ sElemsTail xs

def sMembers : List (List Char × Json) → List Char
  | [] => []
  | (k, v) :: ms => sKey k ++ ':' :: sJson v ++ sMembersTail ms

def sMembersTail : List (List Char × Json) → List Char
  | [] => []
  | (k, v) :: ms => ',' :: sKey k ++ ':' :: sJson v ++ sMembersTail ms

end

def noDupKeys : List (List Char × Json) → Bool
  | [] => true
  | (k, _) :: rest => !(rest.any fun m => m.1 = k) && noDupKeys rest

mutual

/-- Values in the image of the embedded `JSON.parse`: object keys are
duplicate-free at every level. -/
def wf : Json → Bool
  | .null => true
  | .bool _ => true
  | .num _ => true
  | .str _ => true
  | .arr xs => wfList xs
  | .obj ms => noDupKeys ms && wfMems ms

def wfList : List Json → Bool
  | [] => true
  | x :: xs => wf x && wfList xs

def wfMems : List (List Char × Json) → Bool
  | [] => true
  | (_, v) :: ms => wf v && wfMems ms

end

mutual

/-- Values containing no number anywhere: on these, `JSON.parse` and
`JSON.stringify` perform no IEEE-754 conversion. -/
def noNums : Json → Bool
  | .null => true
  | .bool _ => true
  | .num _ => false
  | .str _ => true
  | .arr xs => noNumsList xs
  | .obj ms => noNumsMems ms

def noNumsList : List Json → Bool
  | [] => true
  | x :: xs => noNums x && noNumsList xs

def noNumsMems : List (List Char × Json) → Bool
  | [] => true
  | (_, v) :: ms => noNums v && noNumsMems ms

end

/-! ## The minification transforms (`minifyCode`) -/

/-- Whether the list starts with the given character. -/
def headIs (x : Char) : List Char → Bool
  | c :: _ => c = x
  | [] => false

/-- Whether the list starts with a JS whitespace character. -/
def headIsWs : List Char → Bool
  | c :: _ => isJsWs c
  | [] => false

/-- `replace(/\s+/g, ' ')` core: every maximal whitespace run becomes one
space.  Fueled; each call consumes at least one character. -/
def collapseWsF : Nat → List Char → List Char
  | 0, _ => []
  | fuel + 1, cs =>
    match cs with
    | [] => []
    | c :: rest =>
      if isJsWs c then ' ' :: collapseWsF fuel (rest.dropWhile isJsWs)
      else c :: collapseWsF fuel rest

/-- `replace(/\s+/g, ' ')`. -/
def collapseWs (cs : List Char) : List Char := collapseWsF (cs.length + 1) cs

/-- `replace(/\s{2,}/g, ' ')` core (HTML/XML path): only runs of two or
more whitespace characters collapse; a lone whitespace character is kept. -/
def collapseWs2F : Nat → List Char → List Char
  | 0, _ => []
  | fuel + 1, cs =>
    match cs with
    | [] => []
    | c :: rest =>
      if isJsWs c && headIsWs rest then
        ' ' :: collapseWs2F fuel (rest.dropWhile isJsWs)
      else c :: collapseWs2F fuel rest

/-- `replace(/\s{2,}/g, ' ')`. -/
def collapseWs2 (cs : List Char) : List Char := collapseWs2F (cs.length + 1) cs

/-- `replace(/>\s+</g, '><')` core: whitespace strictly between `>` and
`<` is deleted. -/
def gtLtGapF : Nat → List Char → List Char
  | 0, _ => []
  | fuel + 1, cs =>
    match cs with
    | [] => []
    | c :: rest =>
      if c = '>' && headIsWs rest && headIs '<' (rest.dropWhile isJsWs) then
        '>' :: '<' :: gtLtGapF fuel (rest.dropWhile isJsWs).tail
      else c :: gtLtGapF fuel rest

/-- `replace(/>\s+</g, '><')`. -/
def gtLtGap (cs : List Char) : List Char := gtLtGapF (cs.length + 1) cs

/-- Skip past the nearest `*/`; `none` when the comment is unterminated.
Models the non-greedy `[\s\S]*?\*\/` tail of the block-comment regex. -/
def findClose : List Char → Option (List Char)
  | [] => none
  | c :: rest =>
    if c = '*' && headIs '/' rest then some rest.tail
    else findClose rest

theorem findClose_length {cs r : List Char} (h : findClose cs = some r) :
    r.length < cs.length := by
  induction cs with
  | nil => simp [findClose] at h
  | cons c rest ih =>
    rw [findClose] at h
    split at h
    · rename_i hc
      simp only [Option.some.injEq] at h
      subst h
      have : rest.tail.length ≤ rest.length := by cases rest <;> simp
      simp only [List.length_cons]
      omega
    · have := ih h
      simp only [List.length_cons]
      omega

/-- `replace(/\/\*[\s\S]*?\*\//g, '')` core (CSS path): delete each
terminated block comment; an unterminated `/*` does not match and is left
in place. -/
def stripBlockCommentsF : Nat → List Char → List Char
  | 0, _ => []
  | fuel + 1, cs =>
    match cs with
    | [] => []
    | c :: rest =>
      if c = '/' && headIs '*' rest then
        match findClose rest.tail with
        | some r2 => stripBlockCommentsF fuel r2
        | none => c :: stripBlockCommentsF fuel rest
      else c :: stripBlockCommentsF fuel rest

/-- `replace(/\/\*[\s\S]*?\*\//g, '')`. -/
def stripBlockComments (cs : List Char) : List Char :=
  stripBlockCommentsF (cs.length + 1) cs

/-- Drop the rest of the current line: the `.*$` tail of a line comment
(`.` does not match line terminators, the dollar anchor in multiline mode
sits before the next line terminator or at the end). -/
def dropLine (cs : List Char) : List Char :=
  cs.dropWhile (fun c => !isLineTerm c)

/-- The JS/TS comment pass
`replace(/\/\*[\s\S]*?\*\/|([^\\:]|^)\/\/.*$/gm, '$1')` core:
terminated block comments are deleted; a line comment is deleted when its
`//` follows a captured character that is neither a backslash nor a colon
(the captured character is kept), or when the `//` sits at a line start.
The boolean argument tracks whether the scanner is at a line start
(multiline `^`). -/
def stripJsCommentsF : Nat → Bool → List Char → List Char
  | 0, _, _ => []
  | fuel + 1, ls, cs =>
    match cs with
    | [] => []
    | c :: rest =>
      if c = '/' && headIs '*' rest && (findClose rest.tail).isSome then
        match findClose rest.tail with
        | some r2 => stripJsCommentsF fuel false r2
        | none => c :: rest
      else if !(c = '\\') && !(c = ':') && headIs '/' rest &&
          headIs '/' rest.tail then
        c :: stripJsCommentsF fuel false (dropLine rest.tail.tail)
      else if ls && c = '/' && headIs '/' rest then
        stripJsCommentsF fuel false (dropLine rest.tail)
      else c :: stripJsCommentsF fuel (isLineTerm c) rest

/-- The JS/TS comment pass of `minifyCode`. -/
def stripJsComments (ls : Bool) (cs : List Char) : List Char :=
  stripJsCommentsF (cs.length + 1) ls cs

def isPunctCss (c : Char) : Bool :=
  c = ':' || c = ';' || c = '{' || c = '}'

/-- `replace(/\s*([:;{}])\s*/g, '$1')` core (CSS path): whitespace
adjacent to `:`, `;`, `{`, `}` is deleted, the punctuation kept.  A
whitespace run not followed by such punctuation is left untouched. -/
def dropWsAroundPunctF : Nat → List Char → List Char
  | 0, _ => []
  | fuel + 1, cs =>
    match cs with
    | [] => []
    | c :: rest =>
      if isPunctCss c then c :: dropWsAroundPunctF fuel (rest.dropWhile isJsWs)
      else if isJsWs c then
        match rest.dropWhile isJsWs with
        | p :: r3 =>
          if isPunctCss p then
            p :: dropWsAroundPunctF fuel (r3.dropWhile isJsWs)
          else (c :: rest.takeWhile isJsWs) ++ dropWsAroundPunctF fuel (p :: r3)
        | [] => c :: rest.takeWhile isJsWs
      else c :: dropWsAroundPunctF fuel rest

/-- `replace(/\s*([:;{}])\s*/g, '$1')`. -/
def dropWsAroundPunct (cs : List Char) : List Char :=
  dropWsAroundPunctF (cs.length + 1) cs

/-- The JS/TS minifier body: strip comments, collapse whitespace, trim. -/
def jsMinify (cs : List Char) : List Char :=
  trimL (collapseWs (stripJsComments true cs))

/-- The CSS minifier body: strip block comments, collapse whitespace,
remove whitespace around `:;{}`, trim. -/
def cssMinify (cs : List Char) : List Char :=
  trimL (dropWsAroundPunct (collapseWs (stripBlockComments cs)))

/-- The HTML/XML minifier body: delete inter-tag whitespace, collapse runs
of two or more whitespace characters, trim. -/
def htmlMinify (cs : List Char) : List Char :=
  trimL (collapseWs2 (gtLtGap cs))

/-- The embedded `minifyCode`: blank input short-circuits to the empty
string; the JSON path parses and re-serializes (a parse throw becomes
`syntaxError`, the spec's `InvalidSyntax`); the other paths are the pure
regex transforms; the `default` switch case covers `MARKDOWN`. -/
def minifyCode (code : String) (language : Language) :
    Except MinifyError String :=
  if trimL code.data = [] then .ok ""
  else
    match language with
    | .json =>
      match parseJsonL code.data with
      | some v => .ok (String.mk (sJson v))
      | none => .error .syntaxError
    | .html | .xml => .ok (String.mk (htmlMinify code.data))
    | .css => .ok (String.mk (cssMinify code.data))
    | .javascript | .typescript => .ok (String.mk (jsMinify code.data))
    | .sql => .ok (String.mk (trimL (collapseWs code.data)))
    | .markdown => .ok (String.mk (collapseWs code.data))

/-- The spec's `minify`: `minifyCode` composed with the `handleMinify`
guard that turns an empty transform result on non-blank input into the
`EmptyResult` error. -/
def minify (code : String) (language : Language) :
    Except MinifyError String :=
  match minifyCode code language with
  | .error e => .error e
  | .ok m => if m = "" ∧ trimL code.data ≠ [] then .error .emptyResult else .ok m

/-! ## The detection cascade (`detectLanguage`) -/

/-- Case-insensitive literal match (ASCII folding, as the regex `i` flag
behaves on the letters used by the source patterns); returns the rest of
the input after the literal. -/
def matchCI : List Char → List Char → Option (List Char)
  | [], cs => some cs
  | _ :: _, [] => none
  | p :: ps, c :: cs =>
    if (if 'A' ≤ c && c ≤ 'Z' then Char.ofNat (c.toNat + 32) else c) =
       (if 'A' ≤ p && p ≤ 'Z' then Char.ofNat (p.toNat + 32) else p)
    then matchCI ps cs else none

/-- Case-sensitive literal match returning the rest of the input. -/
def matchCS : List Char → List Char → Option (List Char)
  | [], cs => some cs
  | _ :: _, [] => none
  | p :: ps, c :: cs => if c = p then matchCS ps cs else none

/-- Wordness of the head character (`false` at the end of input), as seen
by a `\b` boundary to its left. -/
def wordHead : List Char → Bool
  | c :: _ => isWordCh c
  | [] => false

/-- `/^<\?xml\s/i`: an XML declaration prologue at the very start. -/
def xmlDeclTest (cs : List Char) : Bool :=
  match matchCI ['<', '?', 'x', 'm', 'l'] cs with
  | some rest => headIsWs rest
  | none => false

/-- `/^<!doctype\s+html/i`: an HTML doctype at the very start. -/
def doctypeTest (cs : List Char) : Bool :=
  match matchCI ['<', '!', 'd', 'o', 'c', 't', 'y', 'p', 'e'] cs with
  | some rest => headIsWs rest && (matchCI ['h', 't', 'm', 'l'] (rest.dropWhile isJsWs)).isSome
  | none => false

/-- The HTML-specific tag names of the `htmlTags` regex (`h[1-6]` expanded). -/
def htmlTagNames : List (List Char) :=
  ["html".data, "head".data, "body".data, "div".data, "span".data, "p".data,
   "a".data, "ul".data, "ol".data, "li".data, "table".data, "tr".data,
   "td".data, "br".data, "img".data, "h1".data, "h2".data, "h3".data,
   "h4".data, "h5".data, "h6".data, "form".data, "input".data,
   "button".data, "script".data, "style".data, "meta".data, "link".data,
   "header".data, "footer".data, "nav".data, "section".data, "article".data]

/-- After a `<`: `\s*\/?\s*(tag)\b` — optional whitespace, optional slash,
optional whitespace, one of the HTML tag names, word boundary. -/
def tagAfterLt (cs : List Char) : Bool :=
  let r1 := cs.dropWhile isJsWs
  let r2 := if headIs '/' r1 then r1.tail else r1
  let r3 := r2.dropWhile isJsWs
  htmlTagNames.any fun tag =>
    match matchCI tag r3 with
    | some rest => !wordHead rest
    | none => false

/-- Generic scan: does the predicate hold at some position of the list? -/
def scanAny (p : List Char → Bool) : List Char → Bool
  | [] => false
  | c :: rest => p (c :: rest) || scanAny p rest

/-- `/<\s*\/?\s*(html|…|article)\b/i` tested anywhere in the input. -/
def htmlTagsTest (cs : List Char) : Bool :=
  scanAny (fun l => headIs '<' l && tagAfterLt l.tail) cs

/-- Leading keywords of the `sqlStartPattern`. -/
def sqlStartKws : List (List Char) :=
  ["select".data, "insert".data, "update".data, "delete".data,
   "create".data, "alter".data, "drop".data, "truncate".data,
   "grant".data, "revoke".data, "begin".data, "declare".data, "with".data]

/-- `/^\s*(SELECT|…|WITH)\b/i`. -/
def sqlStartTest (cs : List Char) : Bool :=
  let r := cs.dropWhile isJsWs
  sqlStartKws.any fun kw =>
    match matchCI kw r with
    | some rest => !wordHead rest
    | none => false

/-- Clause keywords of the `sqlClausePattern`. -/
def sqlClauseKws : List (List Char) :=
  ["from".data, "where".data, "group by".data, "order by".data,
   "inner join".data, "left join".data, "right join".data, "values".data,
   "set".data, "primary key".data, "foreign key".data]

/-- One keyword alternative with `\b` on both sides at the current
position: the left boundary compares the preceding character's wordness
with the alternative's first character, the right boundary compares the
alternative's last character with the following character. -/
def boundedAt (match1 : List Char → List Char → Option (List Char))
    (alt : List Char) (prevW : Bool) (cs : List Char) : Bool :=
  match alt with
  | [] => false
  | a0 :: _ =>
    (prevW != isWordCh a0) &&
    (match match1 alt cs with
     | some rest =>
       (match alt.getLast? with
        | some al => isWordCh al
        | none => false) != wordHead rest
     | none => false)

/-- Scan for a `\b`-delimited alternative anywhere, tracking the wordness
of the previous character (`false` at the start of input). -/
def containsBounded (match1 : List Char → List Char → Option (List Char))
    (alts : List (List Char)) : Bool → List Char → Bool
  | _, [] => false
  | prevW, c :: rest =>
    (alts.any fun alt => boundedAt match1 alt prevW (c :: rest)) ||
    containsBounded match1 alts (isWordCh c) rest

/-- `/\b(FROM|…|FOREIGN KEY)\b/i` tested anywhere. -/
def sqlClauseTest (cs : List Char) : Bool :=
  containsBounded matchCI sqlClauseKws false cs

/-- `/\b(const|var|let|function|return|import|export|class)\b/` (the SQL
branch's JS guard, case-sensitive). -/
def jsKwTest (cs : List Char) : Bool :=
  containsBounded matchCS
    ["const".data, "var".data, "let".data, "function".data, "return".data,
     "import".data, "export".data, "class".data] false cs

/-- `/\b(function|class|if|for|while|const|var|let|return|import|export|=>)\b/`
(the CSS branch's JS-likeness guard; note the `=>` alternative needs a word
character on both its outsides to satisfy the boundaries). -/
def isJsLikeTest (cs : List Char) : Bool :=
  containsBounded matchCS
    ["function".data, "class".data, "if".data, "for".data, "while".data,
     "const".data, "var".data, "let".data, "return".data, "import".data,
     "export".data, "=>".data] false cs

/-- `/"\s*:\s*"/`: the JSON-in-string quoted-colon shape. -/
def quotedColonTest (cs : List Char) : Bool :=
  scanAny
    (fun l =>
      headIs '"' l &&
      (let r1 := l.tail.dropWhile isJsWs
       headIs ':' r1 && headIs '"' (r1.tail.dropWhile isJsWs)))
    cs

def isIdentCh (c : Char) : Bool :=
  (c ≥ 'a' && c ≤ 'z') || (c ≥ 'A' && c ≤ 'Z') || (c ≥ '0' && c ≤ '9') || c = '-'

/-- The `([a-zA-Z0-9-]+\s*:\s*[^;]+;\s*)+}` tail of the strict CSS block
pattern, entered just after the opening brace's whitespace.  Fueled: each
iteration consumes at least four characters, so fuel `length + 1` decides
the pattern exactly. -/
def declLoop : Nat → List Char → Bool
  | 0, _ => false
  | fuel + 1, cs =>
    let id1 := cs.takeWhile isIdentCh
    if id1 = [] then false
    else
      let r1 := (cs.drop id1.length).dropWhile isJsWs
      if headIs ':' r1 then
        let r2 := r1.tail.dropWhile (fun c => !(c = ';' : Bool))
        if (r1.tail.takeWhile (fun c => !(c = ';' : Bool))).length ≥ 1 &&
            headIs ';' r2 then
          let r3 := r2.tail.dropWhile isJsWs
          if headIs '}' r3 then true else declLoop fuel r3
        else false
      else false

/-- The strict CSS rule-block regex
`/[^{}]+{\s*([a-zA-Z0-9-]+\s*:\s*[^;]+;\s*)+}/` tested anywhere: some
non-brace character directly before a `{` whose block body is a sequence
of `property: value;` declarations. -/
def cssBlock1Test (cs : List Char) : Bool :=
  scanAny
    (fun l =>
      match l with
      | a :: '{' :: rest =>
        !(a = '{' || a = '}') &&
        declLoop (rest.length + 1) (rest.dropWhile isJsWs)
      | _ => false)
    cs

/-- Is there a `}` strictly after the head position that sits at a line
end (end of input or before a line terminator)?  This is the
`[\s\S]+\s*}$` tail of the loose CSS pattern. -/
def closeBraceAtEol : List Char → Bool
  | [] => false
  | _ :: rest =>
    scanAny
      (fun l =>
        headIs '}' l &&
        (match l.tail with
         | [] => true
         | c2 :: _ => isLineTerm c2))
      rest

/-- The loose CSS fallback regex `/^[^{}]+{\s*[\s\S]+\s*}$/m` at one line
start: one or more non-brace characters, a `{`, at least one further
character, and a `}` at a line end. -/
def cssBlock2At (cs : List Char) : Bool :=
  let pre := cs.takeWhile fun c => !(c = '{' || c = '}')
  if pre = [] then false
  else
    match cs.drop pre.length with
    | '{' :: rest => closeBraceAtEol rest
    | _ => false

/-- Scan line starts (multiline `^`): the flag is true at the start of the
input and after every line terminator. -/
def scanLineStarts (p : List Char → Bool) : Bool → List Char → Bool
  | _, [] => false
  | ls, c :: rest => (ls && p (c :: rest)) || scanLineStarts p (isLineTerm c) rest

/-- The loose CSS fallback pattern tested at every line start. -/
def cssBlock2Test (cs : List Char) : Bool :=
  scanLineStarts cssBlock2At true cs

/-- `^#{1,6}\s` at a line start: one to six hashes followed by whitespace
(seven or more hashes leave a hash where the whitespace is required). -/
def mdHeadingAt (cs : List Char) : Bool :=
  let n := (cs.takeWhile (fun c => c = '#')).length
  if 1 ≤ n ∧ n ≤ 6 then headIsWs (cs.drop n) else false

/-- `^\s*[-*+]\s` at a line start. -/
def mdListAt (cs : List Char) : Bool :=
  let r := cs.dropWhile isJsWs
  (headIs '-' r || headIs '*' r || headIs '+' r) && headIsWs r.tail

/-- `^>\s` at a line start. -/
def mdQuoteAt (cs : List Char) : Bool :=
  headIs '>' cs && headIsWs cs.tail

/-- After a `(`: some `)` later with no line terminator in between
(the `.*\)` tail of the markdown link pattern). -/
def closeParenSameLine : List Char → Bool
  | [] => false
  | c :: rest => if isLineTerm c then false else c = ')' || closeParenSameLine rest

/-- After a `[`: a `]` with no line terminator before it, immediately
followed by `(`, and a `)` later on the same line — the
`\[.*\]\(.*\)` alternative, tried at every `]` the backtracking `.*`
can reach. -/
def linkAfterBracket : List Char → Bool
  | [] => false
  | c :: rest =>
    if isLineTerm c then false
    else
      (c = ']' && headIs '(' rest && closeParenSameLine rest.tail) ||
      linkAfterBracket rest

/-- The markdown pattern `/(^#{1,6}\s)|(^\s*[-*+]\s)|(^>\s)|(\[.*\]\(.*\))/m`:
the first three alternatives at line starts, the link shape anywhere. -/
def mdScan : Bool → List Char → Bool
  | _, [] => false
  | ls, c :: rest =>
    (ls && (mdHeadingAt (c :: rest) || mdListAt (c :: rest) ||
            mdQuoteAt (c :: rest))) ||
    (c = '[' && linkAfterBracket rest) ||
    mdScan (isLineTerm c) rest

def mdTest (cs : List Char) : Bool := mdScan true cs

/-- `/\b(interface|type|enum|namespace|implements|abstract|readonly|private|protected|public|as)\b/`
(case-sensitive). -/
def tsKwTest (cs : List Char) : Bool :=
  containsBounded matchCS
    ["interface".data, "type".data, "enum".data, "namespace".data,
     "implements".data, "abstract".data, "readonly".data, "private".data,
     "protected".data, "public".data, "as".data] false cs

/-- The primitive type names of the TS annotation pattern. -/
def tsTypeNames : List (List Char) :=
  ["string".data, "number".data, "boolean".data, "any".data, "void".data,
   "never".data, "object".data, "unknown".data]

/-- `/:\s*(string|number|boolean|any|void|never|object|unknown)\b/`. -/
def tsAnnTest (cs : List Char) : Bool :=
  scanAny
    (fun l =>
      headIs ':' l &&
      (let r := l.tail.dropWhile isJsWs
       tsTypeNames.any fun ty =>
         match matchCS ty r with
         | some rest => !wordHead rest
         | none => false))
    cs

/-- `/<[A-Z][a-zA-Z0-9]*>/`: an uppercase-led generic-like token. -/
def tsGenericsTest (cs : List Char) : Bool :=
  scanAny
    (fun l =>
      headIs '<' l &&
      (match l.tail with
       | c :: rest =>
         ('A' ≤ c && c ≤ 'Z') &&
         headIs '>' (rest.dropWhile fun d =>
           ('a' ≤ d && d ≤ 'z') || ('A' ≤ d && d ≤ 'Z') || ('0' ≤ d && d ≤ '9'))
       | [] => false))
    cs

/-- The shape precondition of the detector's JSON test: braces or brackets
at both trimmed ends. -/
def jsonShapeTest (cs : List Char) : Bool :=
  (headIs '{' cs && (cs.getLast? = some '}' : Bool)) ||
  (headIs '[' cs && (cs.getLast? = some ']' : Bool))

/-- The embedded `detectLanguage` on character lists: trim, then the
ordered cascade — empty, JSON shape-and-parse, markup, SQL, CSS, markdown,
TypeScript, JavaScript default. -/
def detectL (content : List Char) : Language :=
  let trimmed := trimL content
  if trimmed = [] then .json
  else if jsonShapeTest trimmed && (parseJsonL trimmed).isSome then .json
  else if headIs '<' trimmed then
    if xmlDeclTest trimmed then .xml
    else if doctypeTest trimmed then .html
    else if htmlTagsTest trimmed then .html
    else .xml
  else if (sqlStartTest trimmed || sqlClauseTest trimmed) &&
      !jsKwTest trimmed then .sql
  else if (cssBlock1Test trimmed || cssBlock2Test trimmed) &&
      !isJsLikeTest trimmed && !quotedColonTest trimmed then .css
  else if mdTest trimmed then .markdown
  else if tsKwTest trimmed || tsAnnTest trimmed || tsGenericsTest trimmed then
    .typescript
  else .javascript

/-- The embedded `detectLanguage` on strings. -/
def detect (s : String) : Language := detectL s.data

/-! ## Trim lemmas -/

theorem dropWhile_idem (p : Char → Bool) (l : List Char) :
    (l.dropWhile p).dropWhile p = l.dropWhile p := by
  induction l with
  | nil => rfl
  | cons c rest ih =>
    by_cases h : p c
    · simp [List.dropWhile_cons, h, ih]
    · simp [List.dropWhile_cons, h]

theorem trimRightL_idem (l : List Char) :
    trimRightL (trimRightL l) = trimRightL l := by
  induction l with
  | nil => rfl
  | cons c rest ih =>
    rw [trimRightL]
    split
    · rfl
    · rename_i h
      rw [trimRightL, ih]
      simp only [if_neg h]

theorem trimRightL_head? (l : List Char) :
    trimRightL l = [] ∨ (trimRightL l).head? = l.head? := by
  cases l with
  | nil => left; rfl
  | cons c rest =>
    rw [trimRightL]
    split
    · left; rfl
    · right; rfl

theorem trimRightL_eq_nil (l : List Char) :
    trimRightL l = [] ↔ ∀ c ∈ l, isJsWs c := by
  induction l with
  | nil => simp [trimRightL]
  | cons c rest ih =>
    rw [trimRightL]
    constructor
    · intro h
      split at h
      · rename_i hcond
        simp only [Bool.and_eq_true, decide_eq_true_eq] at hcond
        intro d hd
        rcases List.mem_cons.mp hd with h3 | h3
        · rw [h3]; exact hcond.2
        · exact (ih.mp hcond.1) d h3
      · simp at h
    · intro h
      have h1 : trimRightL rest = [] := ih.mpr fun d hd => h d (List.mem_cons_of_mem _ hd)
      have h2 : isJsWs c := h c (List.mem_cons_self _ _)
      simp [h1, h2]

theorem trimL_eq_nil (l : List Char) :
    trimL l = [] ↔ ∀ c ∈ l, isJsWs c := by
  rw [trimL, trimRightL_eq_nil]
  constructor
  · intro h c hc
    rw [← List.takeWhile_append_dropWhile (p := isJsWs) (l := l)] at hc
    rcases List.mem_append.mp hc with h1 | h1
    · exact List.mem_takeWhile_imp h1
    · exact h c h1
  · intro h c hc
    exact h c ((List.dropWhile_sublist _).subset hc)

theorem head_dropWhile_not (p : Char → Bool) (l : List Char) (c : Char)
    (h : (l.dropWhile p).head? = some c) : p c = false := by
  induction l with
  | nil => simp at h
  | cons d rest ih =>
    rw [List.dropWhile_cons] at h
    split at h
    · exact ih h
    · rename_i hd
      simp only [List.head?_cons, Option.some.injEq] at h
      subst h
      exact Bool.not_eq_true _ ▸ (by simpa using hd)

/-- A character that is JS whitespace but not JSON whitespace cannot start
any JSON token. -/
theorem jsOnlyWs_not_start (c : Char) (h1 : isJsWs c = true)
    (h2 : isJsonWs c = false) :
    ¬(c = '{') ∧ ¬(c = '[') ∧ ¬(c = '"') ∧ ¬(c = 't') ∧ ¬(c = 'f') ∧
    ¬(c = 'n') ∧ (c = '-' || isDigitCh c) = false := by
  simp only [isJsWs, Bool.or_eq_true, decide_eq_true_eq] at h1
  casesm* _ ∨ _ <;> subst_vars <;> decide

/-- On all-whitespace input the parser fails (there is no value token). -/
theorem parseValue_allWs (fuel : Nat) (cs : List Char)
    (h : ∀ c ∈ cs, isJsWs c) : parseValue fuel cs = none := by
  cases fuel with
  | zero => rfl
  | succ f =>
    cases hd : cs.dropWhile isJsonWs with
    | nil => rw [parseValue, hd]
    | cons c rest =>
      have hc : c ∈ cs := (List.dropWhile_sublist _).subset (hd ▸ List.mem_cons_self _ _)
      have hw : isJsWs c := h c hc
      have hnj : isJsonWs c = false := head_dropWhile_not _ cs c (by rw [hd]; rfl)
      obtain ⟨n1, n2, n3, n4, n5, n6, n7⟩ := jsOnlyWs_not_start c hw hnj
      simp only [parseValue, hd]
      rw [if_neg n1, if_neg n2, if_neg n3, if_neg n4, if_neg n5, if_neg n6, n7]
      simp

theorem parseJsonL_some_trim_ne {cs : List Char} {v : Json}
    (h : parseJsonL cs = some v) : trimL cs ≠ [] := by
  intro hnil
  have hall : ∀ c ∈ cs, isJsWs c := (trimL_eq_nil cs).mp hnil
  rw [parseJsonL, parseValue_allWs _ _ hall] at h
  exact Option.noConfusion h

/-! ## Object member normalization -/

theorem mem_insertMember {acc : List (List Char × Json)} {k : List Char}
    {v : Json} {p : List Char × Json} (h : p ∈ insertMember acc k v) :
    p ∈ acc ∨ p = (k, v) := by
  induction acc with
  | nil => right; rw [insertMember] at h; exact List.mem_singleton.mp h
  | cons a rest ih =>
    obtain ⟨k', v'⟩ := a
    rw [insertMember] at h
    split at h
    · rename_i he
      rcases List.mem_cons.mp h with h1 | h1
      · subst he; right; rw [h1]
      · left; exact List.mem_cons_of_mem _ h1
    · rcases List.mem_cons.mp h with h1 | h1
      · left; rw [h1]; exact List.mem_cons_self _ _
      · rcases ih h1 with h2 | h2
        · left; exact List.mem_cons_of_mem _ h2
        · right; exact h2

theorem insertMember_keys (acc : List (List Char × Json)) (k : List Char)
    (v : Json) :
    (insertMember acc k v).map Prod.fst =
      if k ∈ acc.map Prod.fst then acc.map Prod.fst
      else acc.map Prod.fst ++ [k] := by
  induction acc with
  | nil => simp [insertMember]
  | cons a rest ih =>
    obtain ⟨k', v'⟩ := a
    rw [insertMember]
    split
    · rename_i he
      subst he
      simp
    · rename_i he
      have : k ∈ k' :: rest.map Prod.fst ↔ k ∈ rest.map Prod.fst := by
        simp only [List.mem_cons]
        constructor
        · rintro (h1 | h1)
          · exact absurd h1.symm he
          · exact h1
        · exact Or.inr
      simp only [List.map_cons, ih, this]
      split <;> simp

theorem insertMember_nodup {acc : List (List Char × Json)} {k : List Char}
    {v : Json} (h : (acc.map Prod.fst).Nodup) :
    ((insertMember acc k v).map Prod.fst).Nodup := by
  rw [insertMember_keys]
  split
  · exact h
  · rename_i he
    rw [List.nodup_append]
    refine ⟨h, List.nodup_singleton _, ?_⟩
    intro a ha hb
    rw [List.mem_singleton] at hb
    exact he (hb ▸ ha)

theorem insertMember_append {acc : List (List Char × Json)} {k : List Char}
    {v : Json} (h : k ∉ acc.map Prod.fst) :
    insertMember acc k v = acc ++ [(k, v)] := by
  induction acc with
  | nil => rfl
  | cons a rest ih =>
    obtain ⟨k', v'⟩ := a
    simp only [List.map_cons, List.mem_cons] at h
    push_neg at h
    rw [insertMember, if_neg (fun he => h.1 he.symm), ih h.2]
    rfl

theorem normMembers_nodup (raw : List (List Char × Json)) :
    ((normMembers raw).map Prod.fst).Nodup := by
  have key : ∀ (l acc : List (List Char × Json)), (acc.map Prod.fst).Nodup →
      ((l.foldl (fun a kv => insertMember a kv.1 kv.2) acc).map Prod.fst).Nodup := by
    intro l
    induction l with
    | nil => intro acc h; exact h
    | cons a rest ih =>
      intro acc h
      exact ih _ (insertMember_nodup h)
  exact key raw [] (by simp)

theorem mem_normMembers {raw : List (List Char × Json)}
    {p : List Char × Json} (h : p ∈ normMembers raw) : p ∈ raw := by
  have key : ∀ (l acc : List (List Char × Json)),
      p ∈ l.foldl (fun a kv => insertMember a kv.1 kv.2) acc →
      p ∈ acc ∨ p ∈ l := by
    intro l
    induction l with
    | nil => intro acc h1; left; exact h1
    | cons a rest ih =>
      intro acc h1
      rcases ih _ h1 with h2 | h2
      · rcases mem_insertMember h2 with h3 | h3
        · left; exact h3
        · right; rw [h3]; exact List.mem_cons_self _ _
      · right; exact List.mem_cons_of_mem _ h2
  rcases key raw [] h with h1 | h1
  · simp at h1
  · exact h1

theorem noDupKeys_iff (ms : List (List Char × Json)) :
    noDupKeys ms = true ↔ (ms.map Prod.fst).Nodup := by
  induction ms with
  | nil => simp [noDupKeys]
  | cons a rest ih =>
    obtain ⟨k, v⟩ := a
    rw [noDupKeys]
    simp only [Bool.and_eq_true, ih, List.map_cons, List.nodup_cons,
      Bool.not_eq_true', List.any_eq_false, decide_eq_true_eq]
    constructor
    · rintro ⟨h1, h2⟩
      refine ⟨fun hk => ?_, h2⟩
      obtain ⟨m, hm, he⟩ := List.mem_map.mp hk
      exact h1 m hm he
    · rintro ⟨h1, h2⟩
      exact ⟨fun m hm he => h1 (List.mem_map.mpr ⟨m, hm, he⟩), h2⟩

theorem wfMems_iff (ms : List (List Char × Json)) :
    wfMems ms = true ↔ ∀ p ∈ ms, wf p.2 = true := by
  induction ms with
  | nil => simp [wfMems]
  | cons a rest ih =>
    obtain ⟨k, v⟩ := a
    rw [wfMems]
    simp only [Bool.and_eq_true, ih]
    constructor
    · rintro ⟨h1, h2⟩ p hp
      rcases List.mem_cons.mp hp with h3 | h3
      · rw [h3]; exact h1
      · exact h2 p h3
    · intro h
      exact ⟨h _ (List.mem_cons_self _ _), fun p hp => h p (List.mem_cons_of_mem _ hp)⟩

theorem wfList_iff (xs : List Json) :
    wfList xs = true ↔ ∀ x ∈ xs, wf x = true := by
  induction xs with
  | nil => simp [wfList]
  | cons a rest ih =>
    rw [wfList]
    simp only [Bool.and_eq_true, ih]
    constructor
    · rintro ⟨h1, h2⟩ x hx
      rcases List.mem_cons.mp hx with h3 | h3
      · rw [h3]; exact h1
      · exact h2 x h3
    · intro h
      exact ⟨h _ (List.mem_cons_self _ _), fun x hx => h x (List.mem_cons_of_mem _ hx)⟩

theorem wf_normMembers {raw : List (List Char × Json)}
    (h : wfMems raw = true) : wf (Json.obj (normMembers raw)) = true := by
  rw [wf]
  simp only [Bool.and_eq_true]
  refine ⟨(noDupKeys_iff _).mpr (normMembers_nodup raw), ?_⟩
  rw [wfMems_iff]
  intro p hp
  exact (wfMems_iff raw).mp h p (mem_normMembers hp)

theorem normMembers_id {ms : List (List Char × Json)}
    (h : noDupKeys ms = true) : normMembers ms = ms := by
  have key : ∀ (l acc : List (List Char × Json)),
      ((acc.map Prod.fst ++ l.map Prod.fst)).Nodup →
      l.foldl (fun a kv => insertMember a kv.1 kv.2) acc = acc ++ l := by
    intro l
    induction l with
    | nil => intro acc _; simp
    | cons a rest ih =>
      intro acc hnd
      obtain ⟨k, v⟩ := a
      simp only [List.map_cons] at hnd
      have hk : k ∉ acc.map Prod.fst := by
        intro hm
        rcases List.nodup_append.mp hnd with ⟨_, _, hdisj⟩
        exact hdisj hm (List.mem_cons_self _ _)
      have hside : ((acc ++ [(k, v)]).map Prod.fst ++ rest.map Prod.fst).Nodup := by
        simp only [List.map_append, List.map_cons, List.map_nil] at hnd ⊢
        simpa [List.append_assoc] using hnd
      rw [List.foldl_cons]
      simp only [insertMember_append hk, ih _ hside]
      simp
  rw [normMembers, key ms [] (by simpa using (noDupKeys_iff ms).mp h)]
  rfl

/-! ## The parser produces well-formed values -/

theorem parse_wf_all (fuel : Nat) :
    (∀ cs v r, parseValue fuel cs = some (v, r) → wf v = true) ∧
    (∀ cs ms r, parseMembers fuel cs = some (ms, r) → wfMems ms = true) ∧
    (∀ cs ms r, parseMembersTail fuel cs = some (ms, r) → wfMems ms = true) ∧
    (∀ cs xs r, parseElems fuel cs = some (xs, r) → wfList xs = true) ∧
    (∀ cs xs r, parseElemsTail fuel cs = some (xs, r) → wfList xs = true) := by
  induction fuel with
  | zero =>
    refine ⟨?_, ?_, ?_, ?_, ?_⟩ <;> intro cs a r h
    · rw [parseValue] at h; exact Option.noConfusion h
    · rw [parseMembers] at h; exact Option.noConfusion h
    · rw [parseMembersTail] at h; exact Option.noConfusion h
    · rw [parseElems] at h; exact Option.noConfusion h
    · rw [parseElemsTail] at h; exact Option.noConfusion h
  | succ f ih =>
    obtain ⟨ihV, ihM, ihMT, ihE, ihET⟩ := ih
    have memStep : ∀ k v ms' (cs2 r4 r5 : List Char),
        parseValue f cs2 = some (v, r4) →
        parseMembersTail f r4 = some (ms', r5) →
        wfMems ((k, v) :: ms') = true := by
      intro k v ms' cs2 r4 r5 hv hm
      rw [wfMems, Bool.and_eq_true]
      exact ⟨ihV _ _ _ hv, ihMT _ _ _ hm⟩
    refine ⟨?_, ?_, ?_, ?_, ?_⟩
    · intro cs v r h
      rw [parseValue] at h
      split at h
      · exact Option.noConfusion h
      · rename_i c rest hd
        by_cases h1 : c = '{'
        · rw [if_pos h1] at h
          split at h
          · rename_i ms r2 hm
            simp only [Option.some.injEq, Prod.mk.injEq] at h
            obtain ⟨hv, _⟩ := h
            rw [← hv]
            exact wf_normMembers (ihM _ _ _ hm)
          · exact Option.noConfusion h
        · rw [if_neg h1] at h
          by_cases h2 : c = '['
          · rw [if_pos h2] at h
            split at h
            · rename_i xs r2 he
              simp only [Option.some.injEq, Prod.mk.injEq] at h
              obtain ⟨hv, _⟩ := h
              rw [← hv, wf]
              exact ihE _ _ _ he
            · exact Option.noConfusion h
          · rw [if_neg h2] at h
            by_cases h3 : c = '"'
            · rw [if_pos h3] at h
              split at h
              · rename_i s r2 hs
                simp only [Option.some.injEq, Prod.mk.injEq] at h
                obtain ⟨hv, _⟩ := h
                rw [← hv, wf]
              · exact Option.noConfusion h
            · rw [if_neg h3] at h
              by_cases h4 : c = 't'
              · rw [if_pos h4] at h
                split at h
                · simp only [Option.some.injEq, Prod.mk.injEq] at h
                  obtain ⟨hv, _⟩ := h
                  rw [← hv, wf]
                · exact Option.noConfusion h
              · rw [if_neg h4] at h
                by_cases h5 : c = 'f'
                · rw [if_pos h5] at h
                  split at h
                  · simp only [Option.some.injEq, Prod.mk.injEq] at h
                    obtain ⟨hv, _⟩ := h
                    rw [← hv, wf]
                  · exact Option.noConfusion h
                · rw [if_neg h5] at h
                  by_cases h6 : c = 'n'
                  · rw [if_pos h6] at h
                    split at h
                    · simp only [Option.some.injEq, Prod.mk.injEq] at h
                      obtain ⟨hv, _⟩ := h
                      rw [← hv, wf]
                    · exact Option.noConfusion h
                  · rw [if_neg h6] at h
                    by_cases h7 : (c = '-' || isDigitCh c) = true
                    · rw [if_pos h7] at h
                      rw [parseNum] at h
                      split at h
                      · rename_i hvalid
                        simp only [Option.some.injEq, Prod.mk.injEq] at h
                        obtain ⟨hv, _⟩ := h
                        rw [← hv, wf]
                      · exact Option.noConfusion h
                    · rw [if_neg h7] at h
                      exact Option.noConfusion h
    · intro cs ms r h
      rw [parseMembers] at h
      split at h
      · exact Option.noConfusion h
      · rename_i c rest hd
        by_cases h1 : c = '}'
        · rw [if_pos h1] at h
          simp only [Option.some.injEq, Prod.mk.injEq] at h
          obtain ⟨hv, _⟩ := h
          rw [← hv, wfMems]
        · rw [if_neg h1] at h
          by_cases h2 : c = '"'
          · rw [if_pos h2] at h
            split at h
            · rename_i k r1 hs
              split at h
              · rename_i c2 r3 hdw
                split at h
                · split at h
                  · rename_i v r4 hv
                    split at h
                    · rename_i ms' r5 hm
                      simp only [Option.some.injEq, Prod.mk.injEq] at h
                      obtain ⟨hm2, _⟩ := h
                      rw [← hm2]
                      exact memStep k v ms' r3 r4 r5 hv hm
                    · exact Option.noConfusion h
                  · exact Option.noConfusion h
                · exact Option.noConfusion h
              · exact Option.noConfusion h
            · exact Option.noConfusion h
          · rw [if_neg h2] at h
            exact Option.noConfusion h
    · intro cs ms r h
      rw [parseMembersTail] at h
      split at h
      · exact Option.noConfusion h
      · rename_i c rest hd
        by_cases h1 : c = '}'
        · rw [if_pos h1] at h
          simp only [Option.some.injEq, Prod.mk.injEq] at h
          obtain ⟨hv, _⟩ := h
          rw [← hv, wfMems]
        · rw [if_neg h1] at h
          by_cases h2 : c = ','
          · rw [if_pos h2] at h
            split at h
            · rename_i c2 r2 hdw
              split at h
              · split at h
                · rename_i k r3 hs
                  split at h
                  · rename_i c3 r4 hdw2
                    split at h
                    · split at h
                      · rename_i v r5 hv
                        split at h
                        · rename_i ms' r6 hm
                          simp only [Option.some.injEq, Prod.mk.injEq] at h
                          obtain ⟨hm2, _⟩ := h
                          rw [← hm2]
                          exact memStep k v ms' r4 r5 r6 hv hm
                        · exact Option.noConfusion h
                      · exact Option.noConfusion h
                    · exact Option.noConfusion h
                  · exact Option.noConfusion h
                · exact Option.noConfusion h
              · exact Option.noConfusion h
            · exact Option.noConfusion h
          · rw [if_neg h2] at h
            exact Option.noConfusion h
    · intro cs xs r h
      rw [parseElems] at h
      split at h
      · exact Option.noConfusion h
      · rename_i c rest hd
        by_cases h1 : c = ']'
        · rw [if_pos h1] at h
          simp only [Option.some.injEq, Prod.mk.injEq] at h
          obtain ⟨hv, _⟩ := h
          rw [← hv, wfList]
        · rw [if_neg h1] at h
          split at h
          · rename_i v r2 hv
            split at h
            · rename_i xs' r3 he
              simp only [Option.some.injEq, Prod.mk.injEq] at h
              obtain ⟨hx, _⟩ := h
              rw [← hx, wfList, Bool.and_eq_true]
              exact ⟨ihV _ _ _ hv, ihET _ _ _ he⟩
            · exact Option.noConfusion h
          · exact Option.noConfusion h
    · intro cs xs r h
      rw [parseElemsTail] at h
      split at h
      · exact Option.noConfusion h
      · rename_i c rest hd
        by_cases h1 : c = ']'
        · rw [if_pos h1] at h
          simp only [Option.some.injEq, Prod.mk.injEq] at h
          obtain ⟨hv, _⟩ := h
          rw [← hv, wfList]
        · rw [if_neg h1] at h
          by_cases h2 : c = ','
          · rw [if_pos h2] at h
            split at h
            · rename_i v r2 hv
              split at h
              · rename_i xs' r3 he
                simp only [Option.some.injEq, Prod.mk.injEq] at h
                obtain ⟨hx, _⟩ := h
                rw [← hx, wfList, Bool.and_eq_true]
                exact ⟨ihV _ _ _ hv, ihET _ _ _ he⟩
              · exact Option.noConfusion h
            · exact Option.noConfusion h
          · rw [if_neg h2] at h
            exact Option.noConfusion h

theorem parseValue_wf {fuel : Nat} {cs : List Char} {v : Json} {r : List Char}
    (h : parseValue fuel cs = some (v, r)) : wf v = true :=
  (parse_wf_all fuel).1 cs v r h

theorem parseJsonL_wf {cs : List Char} {v : Json}
    (h : parseJsonL cs = some v) : wf v = true := by
  rw [parseJsonL] at h
  split at h
  · rename_i v2 r2 hp
    split at h
    · simp only [Option.some.injEq] at h
      exact h ▸ parseValue_wf hp
    · exact Option.noConfusion h
  · exact Option.noConfusion h

/-! ## Serialize-then-parse round trip: auxiliary lemmas -/

theorem hexVal_hexDigitCh {n : Nat} (h : n < 16) :
    hexVal (hexDigitCh n) = n := by
  interval_cases n <;> decide

theorem isHexCh_hexDigitCh {n : Nat} (h : n < 16) :
    isHexCh (hexDigitCh n) = true := by
  interval_cases n <;> decide

theorem parseStrF_escStr (s : List Char) :
    ∀ (rest : List Char) (fuel : Nat), (escStr s).length + 2 ≤ fuel →
    parseStrF fuel (escStr s ++ '"' :: rest) = some (s, rest) := by
  induction s with
  | nil =>
    intro rest fuel hf
    obtain ⟨g, rfl⟩ : ∃ g, fuel = g + 1 := ⟨fuel - 1, by omega⟩
    rfl
  | cons c s' ih =>
    intro rest fuel hf
    rw [escStr] at hf ⊢
    have hlen : (escChar c).length + (escStr s').length + 2 ≤ fuel := by
      rw [List.length_append] at hf; omega
    rw [List.append_assoc]
    rw [escChar] at hlen ⊢
    by_cases h1 : c = '"'
    · subst h1
      rw [if_pos rfl] at hlen ⊢
      obtain ⟨g, rfl⟩ : ∃ g, fuel = g + 2 := ⟨fuel - 2, by omega⟩
      have step : parseStrF (g + 2)
          (['\\', '"'] ++ (escStr s' ++ '"' :: rest)) =
          consStr '"' (parseStrF g (escStr s' ++ '"' :: rest)) := rfl
      rw [step, ih rest g (by simp at hlen ⊢; omega)]
      rfl
    · rw [if_neg h1] at hlen ⊢
      by_cases h2 : c = '\\'
      · subst h2
        rw [if_pos rfl] at hlen ⊢
        obtain ⟨g, rfl⟩ : ∃ g, fuel = g + 2 := ⟨fuel - 2, by omega⟩
        have step : parseStrF (g + 2)
            (['\\', '\\'] ++ (escStr s' ++ '"' :: rest)) =
            consStr '\\' (parseStrF g (escStr s' ++ '"' :: rest)) := rfl
        rw [step, ih rest g (by simp at hlen ⊢; omega)]
        rfl
      · rw [if_neg h2] at hlen ⊢
        by_cases h3 : c = '\x08'
        · subst h3
          rw [if_pos rfl] at hlen ⊢
          obtain ⟨g, rfl⟩ : ∃ g, fuel = g + 2 := ⟨fuel - 2, by omega⟩
          have step : parseStrF (g + 2)
              (['\\', 'b'] ++ (escStr s' ++ '"' :: rest)) =
              consStr '\x08' (parseStrF g (escStr s' ++ '"' :: rest)) := rfl
          rw [step, ih rest g (by simp at hlen ⊢; omega)]
          rfl
        · rw [if_neg h3] at hlen ⊢
          by_cases h4 : c = '\x0c'
          · subst h4
            rw [if_pos rfl] at hlen ⊢
            obtain ⟨g, rfl⟩ : ∃ g, fuel = g + 2 := ⟨fuel - 2, by omega⟩
            have step : parseStrF (g + 2)
                (['\\', 'f'] ++ (escStr s' ++ '"' :: rest)) =
                consStr '\x0c' (parseStrF g (escStr s' ++ '"' :: rest)) := rfl
            rw [step, ih rest g (by simp at hlen ⊢; omega)]
            rfl
          · rw [if_neg h4] at hlen ⊢
            by_cases h5 : c = '\n'
            · subst h5
              rw [if_pos rfl] at hlen ⊢
              obtain ⟨g, rfl⟩ : ∃ g, fuel = g + 2 := ⟨fuel - 2, by omega⟩
              have step : parseStrF (g + 2)
                  (['\\', 'n'] ++ (escStr s' ++ '"' :: rest)) =
                  consStr '\n' (parseStrF g (escStr s' ++ '"' :: rest)) := rfl
              rw [step, ih rest g (by simp at hlen ⊢; omega)]
              rfl
            · rw [if_neg h5] at hlen ⊢
              by_cases h6 : c = '\r'
              · subst h6
                rw [if_pos rfl] at hlen ⊢
                obtain ⟨g, rfl⟩ : ∃ g, fuel = g + 2 := ⟨fuel - 2, by omega⟩
                have step : parseStrF (g + 2)
                    (['\\', 'r'] ++ (escStr s' ++ '"' :: rest)) =
                    consStr '\r' (parseStrF g (escStr s' ++ '"' :: rest)) := rfl
                rw [step, ih rest g (by simp at hlen ⊢; omega)]
                rfl
              · rw [if_neg h6] at hlen ⊢
                by_cases h7 : c = '\t'
                · subst h7
                  rw [if_pos rfl] at hlen ⊢
                  obtain ⟨g, rfl⟩ : ∃ g, fuel = g + 2 := ⟨fuel - 2, by omega⟩
                  have step : parseStrF (g + 2)
                      (['\\', 't'] ++ (escStr s' ++ '"' :: rest)) =
                      consStr '\t' (parseStrF g (escStr s' ++ '"' :: rest)) := rfl
                  rw [step, ih rest g (by simp at hlen ⊢; omega)]
                  rfl
                · rw [if_neg h7] at hlen ⊢
                  by_cases h8 : c.toNat < 32
                  · rw [if_pos h8] at hlen ⊢
                    obtain ⟨g, rfl⟩ : ∃ g, fuel = g + 2 := ⟨fuel - 2, by omega⟩
                    have hd1 : c.toNat / 16 < 16 := by omega
                    have hd2 : c.toNat % 16 < 16 := by omega
                    have step : parseStrF (g + 2)
                        (['\\', 'u', '0', '0', hexDigitCh (c.toNat / 16),
                          hexDigitCh (c.toNat % 16)] ++
                          (escStr s' ++ '"' :: rest)) =
                        parseEscF (g + 1)
                          ('u' :: '0' :: '0' :: hexDigitCh (c.toNat / 16) ::
                            hexDigitCh (c.toNat % 16) ::
                            (escStr s' ++ '"' :: rest)) := rfl
                    rw [step, parseEscF]
                    rw [if_pos (by
                      simp only [Bool.and_eq_true]
                      exact ⟨⟨⟨by decide, by decide⟩, isHexCh_hexDigitCh hd1⟩,
                        isHexCh_hexDigitCh hd2⟩)]
                    have hN : 4096 * hexVal '0' + 256 * hexVal '0' +
                        16 * hexVal (hexDigitCh (c.toNat / 16)) +
                        hexVal (hexDigitCh (c.toNat % 16)) = c.toNat := by
                      rw [hexVal_hexDigitCh hd1, hexVal_hexDigitCh hd2,
                        show hexVal '0' = 0 from rfl]
                      omega
                    rw [hN]
                    rw [if_neg (by simp only [Bool.and_eq_true, decide_eq_true_eq]
                                   omega)]
                    rw [if_neg (by simp only [Bool.and_eq_true, decide_eq_true_eq]
                                   omega)]
                    rw [ih rest g (by simp at hlen ⊢; omega), Char.ofNat_toNat]
                    rfl
                  · rw [if_neg h8] at hlen ⊢
                    obtain ⟨g, rfl⟩ : ∃ g, fuel = g + 1 := ⟨fuel - 1, by omega⟩
                    simp only [List.cons_append, List.nil_append]
                    simp only [parseStrF]
                    rw [if_neg h1, if_neg h2, if_neg h8,
                      ih rest g (by simp at hlen ⊢; omega)]
                    rfl

/-- The wrapper-level escape round trip: the default fuel is sufficient. -/
theorem parseStr_escStr (s rest : List Char) :
    parseStr (escStr s ++ '"' :: rest) = some (s, rest) := by
  rw [parseStr]
  exact parseStrF_escStr s rest _
    (by simp only [List.length_append, List.length_cons]; omega)

theorem numStep_ne_bad_numCh {st : NumSt} {c : Char}
    (h : ¬numStep st c = .bad) : isNumCh c = true := by
  cases st <;> rw [numStep] at h <;>
    first
    | exact absurd rfl h
    | (split_ifs at h <;>
        first
        | exact absurd rfl h
        | (rename_i hcond
           first
           | (simp only [Bool.or_eq_true, decide_eq_true_eq] at hcond
              rcases hcond with hcond | hcond <;> subst hcond <;> decide)
           | (subst hcond; decide)
           | simp [isNumCh, hcond]))

theorem foldl_accept_no_bad :
    ∀ (t : List Char) (st : NumSt),
    numAccept (t.foldl numStep st) = true →
    ¬st = .bad ∧ ∀ c ∈ t, isNumCh c = true := by
  intro t
  induction t with
  | nil =>
    intro st h
    refine ⟨fun hb => ?_, by simp⟩
    rw [hb] at h
    exact absurd h (by decide)
  | cons c rest ih =>
    intro st h
    rw [List.foldl_cons] at h
    obtain ⟨h1, h2⟩ := ih (numStep st c) h
    have hst : ¬st = .bad := by
      intro hb
      rw [hb] at h1
      exact h1 rfl
    refine ⟨hst, ?_⟩
    intro d hd
    rcases List.mem_cons.mp hd with h3 | h3
    · rw [h3]; exact numStep_ne_bad_numCh h1
    · exact h2 d h3

theorem validNumber_chars {t : List Char} (h : validNumber t = true) :
    ∀ c ∈ t, isNumCh c = true :=
  (foldl_accept_no_bad t .s0 h).2

theorem validNumber_head {t : List Char} (h : validNumber t = true) :
    ∃ c tl, t = c :: tl ∧ (c = '-' || isDigitCh c) = true := by
  cases t with
  | nil => exact absurd h (by decide)
  | cons c tl =>
    refine ⟨c, tl, rfl, ?_⟩
    rw [validNumber, List.foldl_cons] at h
    have h1 := (foldl_accept_no_bad tl (numStep .s0 c) h).1
    rw [numStep] at h1
    split_ifs at h1 with ha hb hc
    · simp [ha]
    · simp [hb, isDigitCh]
    · simp [hc]
    · exact absurd rfl h1

theorem takeWhile_append_all (p : Char → Bool) :
    ∀ (t rest : List Char), (∀ c ∈ t, p c = true) →
    (∀ c, rest.head? = some c → p c = false) →
    (t ++ rest).takeWhile p = t ∧ (t ++ rest).dropWhile p = rest := by
  intro t
  induction t with
  | nil =>
    intro rest _ h2
    cases rest with
    | nil => simp
    | cons c r =>
      have := h2 c rfl
      simp [List.takeWhile_cons, List.dropWhile_cons, this]
  | cons c t' ih =>
    intro rest h1 h2
    have hc : p c = true := h1 c (List.mem_cons_self _ _)
    obtain ⟨ht, hd⟩ := ih rest (fun d hd => h1 d (List.mem_cons_of_mem _ hd)) h2
    simp [List.takeWhile_cons, List.dropWhile_cons, hc, ht, hd]

theorem natDigitsF_ne_nil_acc : ∀ (f x : Nat) (acc : List Char),
    acc ≠ [] → natDigitsF f x acc ≠ [] := by
  intro f
  induction f with
  | zero => intro x acc h; exact h
  | succ f ih =>
    intro x acc h
    rw [natDigitsF]
    split
    · exact List.cons_ne_nil _ _
    · exact ih _ _ (List.cons_ne_nil _ _)

theorem natDigits_ne_nil (x : Nat) : natDigits x ≠ [] := by
  rw [natDigits, natDigitsF]
  split
  · exact List.cons_ne_nil _ _
  · exact natDigitsF_ne_nil_acc _ _ _ (List.cons_ne_nil _ _)

theorem fmtBody_ne_nil (s : List Char) (n : Int) (hs : s ≠ []) :
    fmtBody s n ≠ [] := by
  rw [fmtBody.eq_def]
  split_ifs
  · simp [hs]
  · simp
  · simp
  · cases s with
    | nil => exact absurd rfl hs
    | cons d ds => cases ds <;> exact List.cons_ne_nil _ _

theorem fmtDouble_ne_nil (neg : Bool) (s : List Char) (n : Int)
    (hs : s ≠ []) : fmtDouble neg s n ≠ [] := by
  rw [fmtDouble]
  split
  · exact List.cons_ne_nil _ _
  · exact fmtBody_ne_nil s n hs

theorem jnumToStr_ne_nil (jn : JNum) : jnumToStr jn ≠ [] := by
  cases jn with
  | inf neg => exact List.cons_ne_nil _ _
  | finite neg m e =>
    rw [jnumToStr]
    split
    · exact List.cons_ne_nil _ _
    · exact fmtDouble_ne_nil _ _ _ (natDigits_ne_nil _)

/-- The serialization of a number-free value starts with a character that
dispatches the corresponding parser branch. -/
theorem sJson_head (v : Json) (hnn : noNums v = true) :
    ∃ c tl, sJson v = c :: tl ∧
      (c = '{' ∨ c = '[' ∨ c = '"' ∨ c = 't' ∨ c = 'f' ∨ c = 'n' ∨
        (c = '-' || isDigitCh c) = true) := by
  cases v with
  | null => exact ⟨'n', _, rfl, by simp⟩
  | bool b =>
    cases b with
    | true => exact ⟨'t', _, rfl, by simp⟩
    | false => exact ⟨'f', _, rfl, by simp⟩
  | num jn =>
    rw [noNums] at hnn
    exact Bool.noConfusion hnn
  | str s => exact ⟨'"', _, rfl, by simp⟩
  | arr xs => exact ⟨'[', _, rfl, by simp⟩
  | obj ms => exact ⟨'{', _, rfl, by simp⟩

theorem startCh_facts {c : Char}
    (h : c = '{' ∨ c = '[' ∨ c = '"' ∨ c = 't' ∨ c = 'f' ∨ c = 'n' ∨
      (c = '-' || isDigitCh c) = true) :
    isJsonWs c = false ∧ ¬c = ']' ∧ ¬c = '}' := by
  rcases h with h | h | h | h | h | h | h
  · subst h; exact ⟨by decide, by decide, by decide⟩
  · subst h; exact ⟨by decide, by decide, by decide⟩
  · subst h; exact ⟨by decide, by decide, by decide⟩
  · subst h; exact ⟨by decide, by decide, by decide⟩
  · subst h; exact ⟨by decide, by decide, by decide⟩
  · subst h; exact ⟨by decide, by decide, by decide⟩
  · simp only [Bool.or_eq_true, decide_eq_true_eq] at h
    rcases h with h | h
    · subst h; exact ⟨by decide, by decide, by decide⟩
    · refine ⟨?_, ?_, ?_⟩
      · by_contra hw
        rw [Bool.not_eq_false] at hw
        simp only [isJsonWs, Bool.or_eq_true, decide_eq_true_eq] at hw
        casesm* _ ∨ _ <;> subst_vars <;> exact absurd h (by decide)
      · intro he; rw [he] at h; exact absurd h (by decide)
      · intro he; rw [he] at h; exact absurd h (by decide)

theorem numStart_not_others {c : Char} (h : (c = '-' || isDigitCh c) = true) :
    ¬c = '{' ∧ ¬c = '[' ∧ ¬c = '"' ∧ ¬c = 't' ∧ ¬c = 'f' ∧ ¬c = 'n' := by
  simp only [Bool.or_eq_true, decide_eq_true_eq] at h
  rcases h with h | h
  · subst h; refine ⟨?_, ?_, ?_, ?_, ?_, ?_⟩ <;> decide
  · refine ⟨?_, ?_, ?_, ?_, ?_, ?_⟩ <;>
      (intro he; rw [he] at h; exact absurd h (by decide))

/-- The first character after a serialized value inside an array or object
is a delimiter outside the number alphabet. -/
def numDelim (rest : List Char) : Prop :=
  ∀ c, rest.head? = some c → isNumCh c = false

theorem numDelim_elemsTail (xs : List Json) (rest : List Char) :
    numDelim (sElemsTail xs ++ ']' :: rest) := by
  cases xs with
  | nil => intro c hc; simp only [sElemsTail, List.nil_append] at hc
           simp only [List.head?_cons, Option.some.injEq] at hc
           subst hc; decide
  | cons x xs' =>
    intro c hc
    simp only [sElemsTail, List.cons_append, List.head?_cons,
      Option.some.injEq] at hc
    subst hc; decide

theorem numDelim_membersTail (ms : List (List Char × Json))
    (rest : List Char) : numDelim (sMembersTail ms ++ '}' :: rest) := by
  cases ms with
  | nil => intro c hc; simp only [sMembersTail, List.nil_append] at hc
           simp only [List.head?_cons, Option.some.injEq] at hc
           subst hc; decide
  | cons m ms' =>
    obtain ⟨k, v⟩ := m
    intro c hc
    simp only [sMembersTail, List.cons_append, List.head?_cons,
      Option.some.injEq] at hc
    subst hc; decide

theorem sKey_length (k : List Char) :
    (sKey k).length = (escStr k).length + 2 := by
  simp [sKey]

theorem sJson_length_pos (v : Json) (h : wf v = true) :
    1 ≤ (sJson v).length := by
  cases v with
  | null => simp [sJson]
  | bool b => cases b <;> simp [sJson]
  | num jn =>
    rw [sJson]
    exact List.length_pos.mpr (jnumToStr_ne_nil jn)
  | str s => simp [sJson, sKey]
  | arr xs => simp [sJson]
  | obj ms => simp [sJson]

mutual

/-- Parsing the serialization of a well-formed value, followed by a
non-number delimiter, yields the value back and consumes exactly the
serialization. -/
theorem rtV (v : Json) (hwf : wf v = true) (hnn : noNums v = true) :
    ∀ (rest : List Char) (fuel : Nat), (sJson v).length < fuel →
    numDelim rest →
    parseValue fuel (sJson v ++ rest) = some (v, rest) := by
  intro rest fuel hlen hnd
  cases v with
  | null =>
    obtain ⟨f, rfl⟩ : ∃ f, fuel = f + 1 := ⟨fuel - 1, by omega⟩
    rfl
  | bool b =>
    obtain ⟨f, rfl⟩ : ∃ f, fuel = f + 1 := ⟨fuel - 1, by omega⟩
    cases b <;> rfl
  | str s =>
    obtain ⟨f, rfl⟩ : ∃ f, fuel = f + 1 := ⟨fuel - 1, by omega⟩
    have hin : sJson (Json.str s) ++ rest =
        '"' :: (escStr s ++ '"' :: rest) := by
      simp [sJson, sKey, List.append_assoc]
    rw [hin]
    have step : parseValue (f + 1) ('"' :: (escStr s ++ '"' :: rest)) =
        (match parseStr (escStr s ++ '"' :: rest) with
         | some (s2, r) => some (Json.str s2, r)
         | none => none) := rfl
    rw [step, parseStr_escStr]
  | num jn =>
    rw [noNums] at hnn
    exact Bool.noConfusion hnn
  | arr xs =>
    rw [wf] at hwf
    rw [noNums] at hnn
    obtain ⟨f, rfl⟩ : ∃ f, fuel = f + 1 := ⟨fuel - 1, by omega⟩
    have hin : sJson (Json.arr xs) ++ rest =
        '[' :: (sElems xs ++ ']' :: rest) := by
      simp [sJson, List.append_assoc]
    rw [hin]
    have step : parseValue (f + 1) ('[' :: (sElems xs ++ ']' :: rest)) =
        (match parseElems f (sElems xs ++ ']' :: rest) with
         | some (xs2, r) => some (Json.arr xs2, r)
         | none => none) := rfl
    rw [step, rtElems xs hwf hnn rest f (by
      rw [sJson] at hlen
      simp only [List.length_cons, List.length_append, List.length_cons,
        List.length_nil] at hlen
      omega)]
  | obj ms =>
    rw [wf, Bool.and_eq_true] at hwf
    obtain ⟨hnodup, hmems⟩ := hwf
    rw [noNums] at hnn
    obtain ⟨f, rfl⟩ : ∃ f, fuel = f + 1 := ⟨fuel - 1, by omega⟩
    have hin : sJson (Json.obj ms) ++ rest =
        '{' :: (sMembers ms ++ '}' :: rest) := by
      simp [sJson, List.append_assoc]
    rw [hin]
    have step : parseValue (f + 1) ('{' :: (sMembers ms ++ '}' :: rest)) =
        (match parseMembers f (sMembers ms ++ '}' :: rest) with
         | some (ms2, r) => some (Json.obj (normMembers ms2), r)
         | none => none) := rfl
    rw [step, rtMembers ms hmems hnn rest f (by
      rw [sJson] at hlen
      simp only [List.length_cons, List.length_append, List.length_cons,
        List.length_nil] at hlen
      omega)]
    show some (Json.obj (normMembers ms), rest) = some (Json.obj ms, rest)
    rw [normMembers_id hnodup]

theorem rtElems (xs : List Json) (hwf : wfList xs = true)
    (hnn : noNumsList xs = true) :
    ∀ (rest : List Char) (fuel : Nat), (sElems xs).length + 1 < fuel →
    parseElems fuel (sElems xs ++ ']' :: rest) = some (xs, rest) := by
  intro rest fuel hlen
  cases xs with
  | nil =>
    obtain ⟨f, rfl⟩ : ∃ f, fuel = f + 1 := ⟨fuel - 1, by omega⟩
    rfl
  | cons x xs' =>
    rw [wfList, Bool.and_eq_true] at hwf
    obtain ⟨hwx, hwxs⟩ := hwf
    rw [noNumsList, Bool.and_eq_true] at hnn
    obtain ⟨hnx, hnxs⟩ := hnn
    obtain ⟨f, rfl⟩ : ∃ f, fuel = f + 1 := ⟨fuel - 1, by omega⟩
    obtain ⟨c, tl, he, hstart⟩ := sJson_head x hnx
    obtain ⟨hws, hne1, _⟩ := startCh_facts hstart
    have hin : sElems (x :: xs') ++ ']' :: rest =
        c :: (tl ++ (sElemsTail xs' ++ ']' :: rest)) := by
      rw [sElems, he]
      simp [List.append_assoc]
    rw [hin]
    simp only [parseElems]
    rw [List.dropWhile_cons, if_neg (by simp [hws])]
    split
    · rename_i heq
      exact absurd heq (by simp)
    · rename_i c2 rest2 heq
      injection heq with hc2 hr2
      subst hc2
      subst hr2
      rw [if_neg hne1]
      have hback : c :: (tl ++ (sElemsTail xs' ++ ']' :: rest)) =
          sJson x ++ (sElemsTail xs' ++ ']' :: rest) := by
        rw [he, List.cons_append]
      rw [hback]
      have hlx : (sJson x).length < f := by
        rw [sElems, he] at hlen
        simp only [List.length_append, List.length_cons] at hlen
        rw [he]
        simp only [List.length_cons]
        omega
      rw [rtV x hwx hnx (sElemsTail xs' ++ ']' :: rest) f hlx
        (numDelim_elemsTail xs' rest)]
      show (match parseElemsTail f (sElemsTail xs' ++ ']' :: rest) with
            | some (xs2, r2) => some (x :: xs2, r2)
            | none => none) = some (x :: xs', rest)
      rw [rtElemsTail xs' hwxs hnxs rest f (by
        rw [sElems] at hlen
        have := sJson_length_pos x hwx
        simp only [List.length_append] at hlen
        omega)]

theorem rtElemsTail (xs : List Json) (hwf : wfList xs = true)
    (hnn : noNumsList xs = true) :
    ∀ (rest : List Char) (fuel : Nat), (sElemsTail xs).length + 1 < fuel →
    parseElemsTail fuel (sElemsTail xs ++ ']' :: rest) = some (xs, rest) := by
  intro rest fuel hlen
  cases xs with
  | nil =>
    obtain ⟨f, rfl⟩ : ∃ f, fuel = f + 1 := ⟨fuel - 1, by omega⟩
    rfl
  | cons x xs' =>
    rw [wfList, Bool.and_eq_true] at hwf
    obtain ⟨hwx, hwxs⟩ := hwf
    rw [noNumsList, Bool.and_eq_true] at hnn
    obtain ⟨hnx, hnxs⟩ := hnn
    obtain ⟨f, rfl⟩ : ∃ f, fuel = f + 1 := ⟨fuel - 1, by omega⟩
    have hin : sElemsTail (x :: xs') ++ ']' :: rest =
        ',' :: (sJson x ++ (sElemsTail xs' ++ ']' :: rest)) := by
      rw [sElemsTail]
      simp [List.append_assoc]
    rw [hin]
    have step : parseElemsTail (f + 1)
        (',' :: (sJson x ++ (sElemsTail xs' ++ ']' :: rest))) =
        (match parseValue f (sJson x ++ (sElemsTail xs' ++ ']' :: rest)) with
         | some (v, r) =>
           (match parseElemsTail f r with
            | some (xs2, r2) => some (v :: xs2, r2)
            | none => none)
         | none => none) := rfl
    rw [step]
    have hlx : (sJson x).length < f := by
      rw [sElemsTail] at hlen
      simp only [List.length_cons, List.length_append] at hlen
      omega
    rw [rtV x hwx hnx (sElemsTail xs' ++ ']' :: rest) f hlx
      (numDelim_elemsTail xs' rest)]
    show (match parseElemsTail f (sElemsTail xs' ++ ']' :: rest) with
          | some (xs2, r2) => some (x :: xs2, r2)
          | none => none) = some (x :: xs', rest)
    rw [rtElemsTail xs' hwxs hnxs rest f (by
      rw [sElemsTail] at hlen
      have := sJson_length_pos x hwx
      simp only [List.length_cons, List.length_append] at hlen
      omega)]

theorem rtMembers (ms : List (List Char × Json)) (hwf : wfMems ms = true)
    (hnn : noNumsMems ms = true) :
    ∀ (rest : List Char) (fuel : Nat), (sMembers ms).length + 1 < fuel →
    parseMembers fuel (sMembers ms ++ '}' :: rest) = some (ms, rest) := by
  intro rest fuel hlen
  cases ms with
  | nil =>
    obtain ⟨f, rfl⟩ : ∃ f, fuel = f + 1 := ⟨fuel - 1, by omega⟩
    rfl
  | cons m ms' =>
    obtain ⟨k, v⟩ := m
    rw [wfMems, Bool.and_eq_true] at hwf
    obtain ⟨hwv, hwms⟩ := hwf
    rw [noNumsMems, Bool.and_eq_true] at hnn
    obtain ⟨hnv, hnms⟩ := hnn
    obtain ⟨f, rfl⟩ : ∃ f, fuel = f + 1 := ⟨fuel - 1, by omega⟩
    have hin : sMembers ((k, v) :: ms') ++ '}' :: rest =
        '"' :: (escStr k ++ '"' ::
          (':' :: (sJson v ++ (sMembersTail ms' ++ '}' :: rest)))) := by
      rw [sMembers, sKey]
      simp [List.append_assoc]
    rw [hin]
    have step : parseMembers (f + 1) ('"' :: (escStr k ++ '"' ::
        (':' :: (sJson v ++ (sMembersTail ms' ++ '}' :: rest))))) =
        (match parseStr (escStr k ++ '"' ::
            (':' :: (sJson v ++ (sMembersTail ms' ++ '}' :: rest)))) with
         | some (k2, r1) =>
           (match r1.dropWhile isJsonWs with
            | c2 :: r3 =>
              if c2 = ':' then
                (match parseValue f r3 with
                 | some (v2, r4) =>
                   (match parseMembersTail f r4 with
                    | some (ms2, r5) => some ((k2, v2) :: ms2, r5)
                    | none => none)
                 | none => none)
              else none
            | [] => none)
         | none => none) := rfl
    rw [step, parseStr_escStr]
    show (match (':' :: (sJson v ++ (sMembersTail ms' ++ '}' :: rest))).dropWhile
            isJsonWs with
          | c2 :: r3 =>
            if c2 = ':' then
              (match parseValue f r3 with
               | some (v2, r4) =>
                 (match parseMembersTail f r4 with
                  | some (ms2, r5) => some ((k, v2) :: ms2, r5)
                  | none => none)
               | none => none)
            else none
          | [] => none) = some ((k, v) :: ms', rest)
    have hdw : (':' :: (sJson v ++ (sMembersTail ms' ++ '}' :: rest))).dropWhile
        isJsonWs = ':' :: (sJson v ++ (sMembersTail ms' ++ '}' :: rest)) := by
      rw [List.dropWhile_cons, if_neg (by decide)]
    rw [hdw]
    show (if ':' = ':' then
            (match parseValue f (sJson v ++ (sMembersTail ms' ++ '}' :: rest)) with
             | some (v2, r4) =>
               (match parseMembersTail f r4 with
                | some (ms2, r5) => some ((k, v2) :: ms2, r5)
                | none => none)
             | none => none)
          else none) = some ((k, v) :: ms', rest)
    rw [if_pos rfl]
    have hlv : (sJson v).length < f := by
      rw [sMembers, sKey] at hlen
      simp only [List.length_append, List.length_cons] at hlen
      omega
    rw [rtV v hwv hnv (sMembersTail ms' ++ '}' :: rest) f hlv
      (numDelim_membersTail ms' rest)]
    show (match parseMembersTail f (sMembersTail ms' ++ '}' :: rest) with
          | some (ms2, r5) => some ((k, v) :: ms2, r5)
          | none => none) = some ((k, v) :: ms', rest)
    rw [rtMembersTail ms' hwms hnms rest f (by
      rw [sMembers, sKey] at hlen
      have := sJson_length_pos v hwv
      simp only [List.length_append, List.length_cons] at hlen
      omega)]

theorem rtMembersTail (ms : List (List Char × Json)) (hwf : wfMems ms = true)
    (hnn : noNumsMems ms = true) :
    ∀ (rest : List Char) (fuel : Nat), (sMembersTail ms).length + 1 < fuel →
    parseMembersTail fuel (sMembersTail ms ++ '}' :: rest) = some (ms, rest) := by
  intro rest fuel hlen
  cases ms with
  | nil =>
    obtain ⟨f, rfl⟩ : ∃ f, fuel = f + 1 := ⟨fuel - 1, by omega⟩
    rfl
  | cons m ms' =>
    obtain ⟨k, v⟩ := m
    rw [wfMems, Bool.and_eq_true] at hwf
    obtain ⟨hwv, hwms⟩ := hwf
    rw [noNumsMems, Bool.and_eq_true] at hnn
    obtain ⟨hnv, hnms⟩ := hnn
    obtain ⟨f, rfl⟩ : ∃ f, fuel = f + 1 := ⟨fuel - 1, by omega⟩
    have hin : sMembersTail ((k, v) :: ms') ++ '}' :: rest =
        ',' :: ('"' :: (escStr k ++ '"' ::
          (':' :: (sJson v ++ (sMembersTail ms' ++ '}' :: rest))))) := by
      rw [sMembersTail, sKey]
      simp [List.append_assoc]
    rw [hin]
    have step : parseMembersTail (f + 1) (',' :: ('"' :: (escStr k ++ '"' ::
        (':' :: (sJson v ++ (sMembersTail ms' ++ '}' :: rest)))))) =
        (match parseStr (escStr k ++ '"' ::
            (':' :: (sJson v ++ (sMembersTail ms' ++ '}' :: rest)))) with
         | some (k2, r3) =>
           (match r3.dropWhile isJsonWs with
            | c3 :: r4 =>
              if c3 = ':' then
                (match parseValue f r4 with
                 | some (v2, r5) =>
                   (match parseMembersTail f r5 with
                    | some (ms2, r6) => some ((k2, v2) :: ms2, r6)
                    | none => none)
                 | none => none)
              else none
            | [] => none)
         | none => none) := rfl
    rw [step, parseStr_escStr]
    show (match (':' :: (sJson v ++ (sMembersTail ms' ++ '}' :: rest))).dropWhile
            isJsonWs with
          | c3 :: r4 =>
            if c3 = ':' then
              (match parseValue f r4 with
               | some (v2, r5) =>
                 (match parseMembersTail f r5 with
                  | some (ms2, r6) => some ((k, v2) :: ms2, r6)
                  | none => none)
               | none => none)
            else none
          | [] => none) = some ((k, v) :: ms', rest)
    have hdw : (':' :: (sJson v ++ (sMembersTail ms' ++ '}' :: rest))).dropWhile
        isJsonWs = ':' :: (sJson v ++ (sMembersTail ms' ++ '}' :: rest)) := by
      rw [List.dropWhile_cons, if_neg (by decide)]
    rw [hdw]
    show (if ':' = ':' then
            (match parseValue f (sJson v ++ (sMembersTail ms' ++ '}' :: rest)) with
             | some (v2, r5) =>
               (match parseMembersTail f r5 with
                | some (ms2, r6) => some ((k, v2) :: ms2, r6)
                | none => none)
             | none => none)
          else none) = some ((k, v) :: ms', rest)
    rw [if_pos rfl]
    have hlv : (sJson v).length < f := by
      rw [sMembersTail, sKey] at hlen
      simp only [List.length_append, List.length_cons] at hlen
      omega
    rw [rtV v hwv hnv (sMembersTail ms' ++ '}' :: rest) f hlv
      (numDelim_membersTail ms' rest)]
    show (match parseMembersTail f (sMembersTail ms' ++ '}' :: rest) with
          | some (ms2, r6) => some ((k, v) :: ms2, r6)
          | none => none) = some ((k, v) :: ms', rest)
    rw [rtMembersTail ms' hwms hnms rest f (by
      rw [sMembersTail, sKey] at hlen
      have := sJson_length_pos v hwv
      simp only [List.length_append, List.length_cons] at hlen
      omega)]

end

/-- Parsing the compact serialization of a well-formed number-free value
gives the value back: the embedded `JSON.parse ∘ JSON.stringify` identity
away from any IEEE-754 conversion. -/
theorem parseJsonL_sJson {v : Json} (h : wf v = true)
    (hnn : noNums v = true) :
    parseJsonL (sJson v) = some v := by
  have h2 : parseValue ((sJson v).length + 1) (sJson v) = some (v, []) := by
    have h3 := rtV v h hnn [] ((sJson v).length + 1) (by omega)
      (fun c hc => by simp at hc)
    rwa [List.append_nil] at h3
  rw [parseJsonL, h2]
  rfl

theorem sJson_ne_nil {v : Json} (h : wf v = true) : sJson v ≠ [] :=
  List.length_pos.mp (sJson_length_pos v h)

theorem mk_sJson_ne_empty {v : Json} (h : wf v = true) :
    String.mk (sJson v) ≠ "" := by
  intro he
  exact sJson_ne_nil h (congrArg String.data he)

/-! ## Claim theorems about the minifier -/

/-- Claim C1: for every language and every input whose trimmed form is
non-empty, if the minification transform (`minifyCode`) computes an empty
output, then `minify` (the `handleMinify` semantics) fails with
`EmptyResult` instead of returning the empty string. -/
theorem C1_empty_result_guard (lang : Language) (t : String)
    (htrim : trimL t.data ≠ []) (hmc : minifyCode t lang = .ok "") :
    minify t lang = .error .emptyResult := by
  rw [minify, hmc]
  show (if ("" : String) = "" ∧ trimL t.data ≠ [] then
          Except.error MinifyError.emptyResult
        else Except.ok "") = Except.error MinifyError.emptyResult
  rw [if_pos ⟨rfl, htrim⟩]

/-- Witness for C1: CSS input that is a lone block comment and JS input
that is a single full-line line comment both minify to the empty transform
output, and `minify` turns both into `EmptyResult`. -/
theorem C1_empty_result_guard_witness :
    (trimL "/* hidden */".data ≠ [] ∧
     minifyCode "/* hidden */" Language.css = .ok "" ∧
     minify "/* hidden */" Language.css = .error .emptyResult) ∧
    (trimL "// note".data ≠ [] ∧
     minifyCode "// note" Language.javascript = .ok "" ∧
     minify "// note" Language.javascript = .error .emptyResult) := by
  refine ⟨⟨by decide, rfl, ?_⟩, ⟨by decide, rfl, ?_⟩⟩
  · exact C1_empty_result_guard Language.css "/* hidden */" (by decide) rfl
  · exact C1_empty_result_guard Language.javascript "// note" (by decide) rfl

theorem minify_blank_ok (lang : Language) (t : String)
    (htrim : trimL t.data = []) : minify t lang = .ok "" := by
  have hmc : minifyCode t lang = .ok "" := by
    rw [minifyCode.eq_def, if_pos htrim]
  rw [minify, hmc]
  show (if ("" : String) = "" ∧ trimL t.data ≠ [] then
          Except.error MinifyError.emptyResult
        else Except.ok "") = Except.ok ""
  rw [if_neg (fun hand => hand.2 htrim)]

/-- Claim C6: empty or all-whitespace input always minifies to the empty
string without error, for every language including JSON. -/
theorem C6_blank_input_ok (lang : Language) (t : String)
    (htrim : trimL t.data = []) : minify t lang = .ok "" :=
  minify_blank_ok lang t htrim

/-- Witness for C6: all-whitespace input on the JSON path (where the text
itself is not valid JSON) and on the CSS path. -/
theorem C6_blank_input_ok_witness :
    minify "   " Language.json = .ok "" ∧
    minify "\t\n" Language.css = .ok "" := by
  exact ⟨C6_blank_input_ok Language.json "   " (by decide),
    C6_blank_input_ok Language.css "\t\n" (by decide)⟩

set_option maxRecDepth 100000 in
/-- Counterexample to claim C4: the valid JSON document `1e999` overflows
IEEE-754 conversion in `JSON.parse` to Infinity, which `JSON.stringify`
serializes as `null`; the minified output parses back to the JSON null
value, not to a value equal to the input's parse, so the round-trip part
of the claim fails. -/
theorem C4_counterexample :
    parseJson "1e999" = some (Json.num (JNum.inf false)) ∧
    minify "1e999" Language.json = .ok "null" ∧
    parseJson "null" = some Json.null ∧
    Json.null ≠ Json.num (JNum.inf false) := by
  refine ⟨rfl, ?_, rfl, fun h => Json.noConfusion h⟩
  have hmc : minifyCode "1e999" Language.json = .ok "null" := rfl
  rw [minify, hmc]
  rfl

/-- Amended claim C4: every valid JSON document minifies successfully to
the serialization of its parsed value, and for documents containing no
numbers — where `JSON.parse` and `JSON.stringify` perform no IEEE-754
conversion — the output parses back to the same value and minification is
idempotent on its own output. -/
theorem C4_roundtrip_no_numbers (t : String) (v : Json)
    (h : parseJson t = some v) :
    minify t Language.json = .ok (String.mk (sJson v)) ∧
    (noNums v = true →
      parseJson (String.mk (sJson v)) = some v ∧
      minify (String.mk (sJson v)) Language.json =
        .ok (String.mk (sJson v))) := by
  rw [parseJson] at h
  have hwf : wf v = true := parseJsonL_wf h
  have htrim : trimL t.data ≠ [] := parseJsonL_some_trim_ne h
  have hmc : minifyCode t Language.json = .ok (String.mk (sJson v)) := by
    rw [minifyCode, if_neg htrim, h]
  constructor
  · rw [minify, hmc]
    show (if String.mk (sJson v) = "" ∧ trimL t.data ≠ [] then
            Except.error MinifyError.emptyResult
          else Except.ok (String.mk (sJson v))) = Except.ok (String.mk (sJson v))
    rw [if_neg (fun hand => mk_sJson_ne_empty hwf hand.1)]
  · intro hnn
    have hout : parseJsonL (String.mk (sJson v)).data = some v :=
      parseJsonL_sJson hwf hnn
    have htrim2 : trimL (String.mk (sJson v)).data ≠ [] :=
      parseJsonL_some_trim_ne hout
    have hmc2 : minifyCode (String.mk (sJson v)) Language.json =
        .ok (String.mk (sJson v)) := by
      rw [minifyCode, if_neg htrim2, hout]
    refine ⟨hout, ?_⟩
    rw [minify, hmc2]
    show (if String.mk (sJson v) = "" ∧
            trimL (String.mk (sJson v)).data ≠ [] then
            Except.error MinifyError.emptyResult
          else Except.ok (String.mk (sJson v))) = Except.ok (String.mk (sJson v))
    rw [if_neg (fun hand => mk_sJson_ne_empty hwf hand.1)]

/-- Witness for the amended C4 at a number-free document with an array, a
boolean, an object, a string key and null. -/
theorem C4_roundtrip_no_numbers_witness :
    parseJson " [true, \x7b\"a\": null\x7d] " =
      some (Json.arr [Json.bool true, Json.obj [(['a'], Json.null)]]) ∧
    minify " [true, \x7b\"a\": null\x7d] " Language.json =
      .ok "[true,\x7b\"a\":null\x7d]" ∧
    parseJson "[true,\x7b\"a\":null\x7d]" =
      some (Json.arr [Json.bool true, Json.obj [(['a'], Json.null)]]) := by
  have h := C4_roundtrip_no_numbers " [true, \x7b\"a\": null\x7d] "
    (Json.arr [Json.bool true, Json.obj [(['a'], Json.null)]]) rfl
  exact ⟨rfl, h.1, (h.2 (by simp [noNums, noNumsList, noNumsMems])).1⟩

/-- Claim C5: the JSON path fails with `InvalidSyntax` (modeled as
`syntaxError`) exactly when the trimmed input is non-empty and the text is
not valid JSON, and no other language path ever raises it. -/
theorem C5_invalid_syntax_iff (t : String) :
    (minify t Language.json = .error .syntaxError ↔
      trimL t.data ≠ [] ∧ parseJson t = none) ∧
    (∀ lang, lang ≠ Language.json →
      minify t lang ≠ .error .syntaxError) := by
  constructor
  · rw [parseJson]
    by_cases htrim : trimL t.data = []
    · rw [minify_blank_ok Language.json t htrim]
      simp [htrim]
    · cases hp : parseJsonL t.data with
      | none =>
        have hmc : minifyCode t Language.json = .error .syntaxError := by
          rw [minifyCode, if_neg htrim, hp]
        rw [minify, hmc]
        simp [htrim]
      | some v =>
        have hmc : minifyCode t Language.json = .ok (String.mk (sJson v)) := by
          rw [minifyCode, if_neg htrim, hp]
        rw [minify, hmc]
        show (if String.mk (sJson v) = "" ∧ trimL t.data ≠ [] then
                Except.error MinifyError.emptyResult
              else Except.ok (String.mk (sJson v))) = _ ↔ _
        constructor
        · intro h
          split at h <;> simp_all
        · rintro ⟨_, h2⟩
          exact Option.noConfusion h2
  · intro lang hlang
    by_cases htrim : trimL t.data = []
    · rw [minify_blank_ok lang t htrim]
      simp
    · have step : ∀ m : String, minifyCode t lang = .ok m →
          minify t lang ≠ .error .syntaxError := by
        intro m hmc
        rw [minify, hmc]
        show (if m = "" ∧ trimL t.data ≠ [] then
                Except.error MinifyError.emptyResult
              else Except.ok m) ≠ _
        split <;> simp
      cases lang with
      | json => exact absurd rfl hlang
      | javascript => exact step _ (by rw [minifyCode, if_neg htrim])
      | typescript => exact step _ (by rw [minifyCode, if_neg htrim])
      | html => exact step _ (by rw [minifyCode, if_neg htrim])
      | css => exact step _ (by rw [minifyCode, if_neg htrim])
      | xml => exact step _ (by rw [minifyCode, if_neg htrim])
      | sql => exact step _ (by rw [minifyCode, if_neg htrim])
      | markdown => exact step _ (by rw [minifyCode, if_neg htrim])

/-- Witness for C5: `minify("{not valid json", JSON)` fails with the
invalid-syntax error, and the same text on the CSS path does not. -/
theorem C5_invalid_syntax_iff_witness :
    minify "\x7bnot valid json" Language.json = .error .syntaxError ∧
    minify "\x7bnot valid json" Language.css ≠ .error .syntaxError := by
  constructor
  · exact ((C5_invalid_syntax_iff "\x7bnot valid json").1).mpr
      ⟨by decide, rfl⟩
  · exact (C5_invalid_syntax_iff "\x7bnot valid json").2 Language.css
      (by decide)

/-! ## Claim theorems about the detector -/

theorem dropWhile_of_head_not (p : Char → Bool) (l : List Char)
    (h : ∀ c, l.head? = some c → p c = false) : l.dropWhile p = l := by
  cases l with
  | nil => rfl
  | cons c rest => rw [List.dropWhile_cons, if_neg (by simp [h c rfl])]

theorem trimL_idem (l : List Char) : trimL (trimL l) = trimL l := by
  rw [trimL, trimL]
  rcases trimRightL_head? (l.dropWhile isJsWs) with h | h
  · rw [h]
    rfl
  · have hd : (trimRightL (l.dropWhile isJsWs)).dropWhile isJsWs =
        trimRightL (l.dropWhile isJsWs) := by
      apply dropWhile_of_head_not
      intro c hc
      rw [h] at hc
      exact head_dropWhile_not _ l c hc
    rw [hd, trimRightL_idem]

/-- Claim C10: detection is invariant under whitespace padding — every
test of the cascade runs on the trimmed text, so detecting the trimmed
text gives the same result. -/
theorem C10_detect_trim_invariant (t : String) :
    detect t = detect (String.mk (trimL t.data)) := by
  rw [detect, detect]
  show detectL t.data = detectL (trimL t.data)
  simp only [detectL]
  rw [trimL_idem]

set_option maxRecDepth 100000 in
/-- Counterexample for claim C2: the input `interface Foo { x: number }`
is not classified as TypeScript by the cascade. -/
theorem C2_counterexample :
    ¬detect "interface Foo \x7b x: number \x7d" = Language.typescript := by
  decide

set_option maxRecDepth 100000 in
/-- Amended claim C2: `detect "interface Foo { x: number }"` returns CSS —
the loose CSS fallback pattern (non-brace prefix, `{`, at least one
character, `}` at a line end) matches the whole line, none of the JS-like
keywords nor the quoted-colon shape occur, and the CSS test precedes the
TypeScript test in the cascade. -/
theorem C2_detects_css :
    detect "interface Foo \x7b x: number \x7d" = Language.css := by
  decide

/-- Counterexample for claim C3: `"true"` is a valid JSON document, yet
the cascade classifies it as JavaScript (the JSON test requires a
brace/bracket shape), so `detect` does not return JSON for every valid
JSON document. -/
theorem C3_counterexample :
    parseJson "true" = some (Json.bool true) ∧
    detect "true" ≠ Language.json ∧
    detect "true" = Language.javascript := by
  refine ⟨rfl, ?_, ?_⟩ <;> decide

set_option maxRecDepth 400000 in
/-- Amended claim C3: for every text whose trimmed form is brace- or
bracket-shaped and parses as JSON, `detect` returns JSON; in particular
text that is simultaneously valid JSON and contains SQL keywords inside a
string value, such as `{"q": "SELECT * FROM t"}`, detects as JSON because
the JSON test precedes the SQL test. -/
theorem C3_shaped_json_detected :
    (∀ (t : String) (v : Json), parseJsonL (trimL t.data) = some v →
      jsonShapeTest (trimL t.data) = true → detect t = Language.json) ∧
    detect "\x7b\"q\": \"SELECT * FROM t\"\x7d" = Language.json := by
  constructor
  · intro t v hp hshape
    have hne : trimL t.data ≠ [] := by
      intro he
      rw [he] at hshape
      exact absurd hshape (by decide)
    rw [detect]
    simp only [detectL]
    rw [if_neg hne, if_pos (by rw [hshape, hp]; rfl)]
  · decide

set_option maxRecDepth 100000 in
/-- Witness for C3 at a concrete shaped document. -/
theorem C3_shaped_json_detected_witness :
    detect " \x7b\"a\": 1\x7d " = Language.json := by
  have hp : parseJsonL (trimL " \x7b\"a\": 1\x7d ".data) =
      some (Json.obj
        [(['a'], Json.num (JNum.finite false 4503599627370496 (-52)))]) := rfl
  exact C3_shaped_json_detected.1 " \x7b\"a\": 1\x7d "
    (Json.obj [(['a'], Json.num (JNum.finite false 4503599627370496 (-52)))])
    hp rfl

/-- Claim C7: once the trimmed text starts with `<`, the markup branch
fully determines the result — XML for an `<?xml` declaration, HTML for a
doctype or a known HTML tag name, XML otherwise — and no later cascade
test can run. -/
theorem C7_markup_terminal (t : String)
    (h : headIs '<' (trimL t.data) = true) :
    (detect t = Language.xml ∨ detect t = Language.html) ∧
    detect t =
      (if xmlDeclTest (trimL t.data) then Language.xml
       else if doctypeTest (trimL t.data) then Language.html
       else if htmlTagsTest (trimL t.data) then Language.html
       else Language.xml) := by
  have hne : trimL t.data ≠ [] := by
    intro he
    rw [he] at h
    exact absurd h (by decide)
  have hshape : jsonShapeTest (trimL t.data) = false := by
    cases hl : trimL t.data with
    | nil => exact absurd hl hne
    | cons c tl =>
      rw [hl] at h
      have hc : c = '<' := by simpa [headIs] using h
      subst hc
      simp [jsonShapeTest, headIs]
  have heq : detect t =
      (if xmlDeclTest (trimL t.data) then Language.xml
       else if doctypeTest (trimL t.data) then Language.html
       else if htmlTagsTest (trimL t.data) then Language.html
       else Language.xml) := by
    rw [detect]
    simp only [detectL]
    rw [if_neg hne, if_neg (by rw [hshape]; simp), if_pos h]
  refine ⟨?_, heq⟩
  rw [heq]
  split
  · left; rfl
  · split
    · right; rfl
    · split
      · right; rfl
      · left; rfl

set_option maxRecDepth 400000 in
/-- Witness for C7: the three spec examples — an XML declaration, an HTML
doctype, and brace-free generic markup. -/
theorem C7_markup_terminal_witness :
    detect "<?xml version=\"1.0\"?><root/>" = Language.xml ∧
    detect "<!DOCTYPE html><html><body>hi</body></html>" = Language.html ∧
    detect "<foo><bar/></foo>" = Language.xml := by
  refine ⟨?_, ?_, ?_⟩
  · exact ((C7_markup_terminal "<?xml version=\"1.0\"?><root/>"
      (by decide)).2).trans (by decide)
  · exact ((C7_markup_terminal "<!DOCTYPE html><html><body>hi</body></html>"
      (by decide)).2).trans (by decide)
  · exact ((C7_markup_terminal "<foo><bar/></foo>"
      (by decide)).2).trans (by decide)

set_option maxRecDepth 400000 in
/-- Claim C8: the JavaScript and TypeScript paths are one and the same
transform (strip block comments and guarded line comments, collapse
whitespace, trim), and on a concrete program the block comment and the
full-line-tail comment are removed while the `https://…` URL — whose `//`
is preceded by a colon — survives intact. -/
theorem C8_js_ts_comment_strip :
    (∀ t : String,
      minify t Language.javascript = minify t Language.typescript) ∧
    minify "const url = \"https://x.io\"; /* c */ let a = 1; // done\nlet b = 2;"
        Language.typescript =
      .ok "const url = \"https://x.io\"; let a = 1; let b = 2;" ∧
    minify "fetch(\"http://e.com\"); // go"
        Language.javascript =
      .ok "fetch(\"http://e.com\");" := by
    exact ⟨fun t => rfl, rfl, rfl⟩

/-! ## Claim C9: no whitespace runs survive CSS minification -/

/-- Two adjacent characters are not both whitespace. -/
def noWsPair (a b : Char) : Prop := ¬(isJsWs a = true ∧ isJsWs b = true)

theorem punct_not_ws {c : Char} (h : isPunctCss c = true) :
    isJsWs c = false := by
  simp only [isPunctCss, Bool.or_eq_true, decide_eq_true_eq] at h
  casesm* _ ∨ _ <;> subst_vars <;> decide

theorem collapseWsF_head (fuel : Nat) (cs : List Char)
    (h : ∀ d, cs.head? = some d → isJsWs d = false) :
    ∀ c, (collapseWsF fuel cs).head? = some c → isJsWs c = false := by
  cases fuel with
  | zero => intro c hc; simp [collapseWsF] at hc
  | succ f =>
    cases cs with
    | nil => intro c hc; simp [collapseWsF] at hc
    | cons d rest =>
      intro c hc
      rw [collapseWsF] at hc
      rw [if_neg (by simp [h d rfl])] at hc
      simp only [List.head?_cons, Option.some.injEq] at hc
      subst hc
      exact h d rfl

theorem collapseWsF_chain (fuel : Nat) :
    ∀ cs, List.Chain' noWsPair (collapseWsF fuel cs) := by
  induction fuel with
  | zero => intro cs; simp [collapseWsF]
  | succ f ih =>
    intro cs
    cases cs with
    | nil => simp [collapseWsF]
    | cons c rest =>
      rw [collapseWsF]
      split
      · rename_i hws
        rw [List.chain'_cons']
        refine ⟨?_, ih _⟩
        intro y hy
        have hyw : isJsWs y = false :=
          collapseWsF_head f (rest.dropWhile isJsWs)
            (fun d hd => head_dropWhile_not _ rest d hd) y hy
        intro ⟨_, h2⟩
        rw [hyw] at h2
        exact Bool.noConfusion h2
      · rename_i hws
        rw [List.chain'_cons']
        refine ⟨?_, ih _⟩
        intro y _
        intro ⟨h1, _⟩
        exact hws (by simp [h1])

theorem dwapF_head (fuel : Nat) (cs : List Char)
    (h : ∀ d, cs.head? = some d → isJsWs d = false) :
    ∀ c, (dropWsAroundPunctF fuel cs).head? = some c → isJsWs c = false := by
  cases fuel with
  | zero => intro c hc; simp [dropWsAroundPunctF] at hc
  | succ f =>
    cases cs with
    | nil => intro c hc; simp [dropWsAroundPunctF] at hc
    | cons d rest =>
      intro c hc
      rw [dropWsAroundPunctF] at hc
      split at hc
      · rename_i hp
        simp only [List.head?_cons, Option.some.injEq] at hc
        subst hc
        exact punct_not_ws hp
      · split at hc
        · rename_i hnp hws
          exact absurd (h d rfl) (by simp [hws])
        · rename_i hnp hws
          simp only [List.head?_cons, Option.some.injEq] at hc
          subst hc
          exact h d rfl

theorem dwapF_chain (fuel : Nat) :
    ∀ cs, List.Chain' noWsPair cs →
    List.Chain' noWsPair (dropWsAroundPunctF fuel cs) := by
  induction fuel with
  | zero => intro cs _; simp [dropWsAroundPunctF]
  | succ f ih =>
    intro cs hch
    cases cs with
    | nil => simp [dropWsAroundPunctF]
    | cons c rest =>
      have htail : List.Chain' noWsPair rest := hch.tail
      have hsfx1 : rest.dropWhile isJsWs <:+ rest :=
        ⟨rest.takeWhile isJsWs, List.takeWhile_append_dropWhile _ _⟩
      rw [dropWsAroundPunctF]
      split
      · rename_i hp
        rw [List.chain'_cons']
        refine ⟨?_, ih _ (htail.suffix hsfx1)⟩
        intro y _
        intro ⟨h1, _⟩
        rw [punct_not_ws hp] at h1
        exact Bool.noConfusion h1
      · split
        · rename_i hnp hws
          split
          · rename_i p r3 hdw
            split
            · rename_i hpp
              rw [List.chain'_cons']
              have hsfx2 : r3.dropWhile isJsWs <:+ rest := by
                refine List.IsSuffix.trans ?_ hsfx1
                rw [hdw]
                exact List.IsSuffix.trans
                  ⟨r3.takeWhile isJsWs, List.takeWhile_append_dropWhile _ _⟩
                  (List.suffix_cons _ _)
              refine ⟨?_, ih _ (htail.suffix hsfx2)⟩
              intro y _
              intro ⟨h1, _⟩
              rw [punct_not_ws hpp] at h1
              exact Bool.noConfusion h1
            · rename_i hpp
              have hsfx3 : p :: r3 <:+ rest := hdw ▸ hsfx1
              have hpw : isJsWs p = false :=
                head_dropWhile_not isJsWs rest p (by rw [hdw]; rfl)
              rw [List.chain'_append]
              refine ⟨?_, ih _ (htail.suffix hsfx3), ?_⟩
              · have hpre : c :: rest.takeWhile isJsWs <+: c :: rest :=
                  ⟨rest.dropWhile isJsWs, by
                    rw [List.cons_append, List.takeWhile_append_dropWhile]⟩
                obtain ⟨tl, htl⟩ := hpre
                have : List.Chain' noWsPair
                    ((c :: rest.takeWhile isJsWs) ++ tl) := htl ▸ hch
                exact this.left_of_append
              · intro x _ y hy
                have hyw : isJsWs y = false :=
                  dwapF_head f (p :: r3) (fun d hd => by
                    simp only [List.head?_cons, Option.some.injEq] at hd
                    subst hd
                    exact hpw) y hy
                intro ⟨_, h2⟩
                rw [hyw] at h2
                exact Bool.noConfusion h2
          · rename_i hdw
            have hpre : c :: rest.takeWhile isJsWs <+: c :: rest :=
              ⟨rest.dropWhile isJsWs, by
                rw [List.cons_append, List.takeWhile_append_dropWhile]⟩
            obtain ⟨tl, htl⟩ := hpre
            have : List.Chain' noWsPair
                ((c :: rest.takeWhile isJsWs) ++ tl) := htl ▸ hch
            exact this.left_of_append
        · rename_i hnp hws
          rw [List.chain'_cons']
          refine ⟨?_, ih _ htail⟩
          intro y _
          intro ⟨h1, _⟩
          exact hws (by simp [h1])

theorem chain_noWsPair_reverse {l : List Char}
    (h : List.Chain' noWsPair l) : List.Chain' noWsPair l.reverse := by
  rw [List.chain'_reverse]
  have hflip : flip noWsPair = noWsPair := by
    funext a b
    simp only [flip, noWsPair, eq_iff_iff]
    tauto
  rw [hflip]
  exact h

theorem trimRightL_isPre (l : List Char) : trimRightL l <+: l := by
  induction l with
  | nil => exact ⟨[], rfl⟩
  | cons c rest ih =>
    rw [trimRightL]
    split
    · exact ⟨c :: rest, rfl⟩
    · obtain ⟨t, ht⟩ := ih
      exact ⟨t, by rw [List.cons_append, ht]⟩

theorem trimL_chain {l : List Char} (h : List.Chain' noWsPair l) :
    List.Chain' noWsPair (trimL l) := by
  rw [trimL]
  have h1 : List.Chain' noWsPair (l.dropWhile isJsWs) :=
    h.suffix ⟨l.takeWhile isJsWs, List.takeWhile_append_dropWhile _ _⟩
  have h2 := chain_noWsPair_reverse h1
  have hsfx : (trimRightL (l.dropWhile isJsWs)).reverse <:+
      (l.dropWhile isJsWs).reverse := by
    rw [List.reverse_suffix]
    exact trimRightL_isPre _
  have h3 := h2.suffix hsfx
  have h4 := chain_noWsPair_reverse h3
  rwa [List.reverse_reverse] at h4

/-- Claim C9: whenever CSS minification succeeds, its output contains no
run of two or more consecutive whitespace characters. -/
theorem C9_css_no_ws_runs (t : String) (out : String)
    (h : minify t Language.css = .ok out) :
    List.Chain' noWsPair out.data := by
  by_cases htrim : trimL t.data = []
  · rw [minify_blank_ok Language.css t htrim] at h
    simp only [Except.ok.injEq] at h
    subst h
    exact List.chain'_nil
  · have hmc : minifyCode t Language.css =
        .ok (String.mk (cssMinify t.data)) := by
      rw [minifyCode, if_neg htrim]
    rw [minify, hmc] at h
    have h2 : (if String.mk (cssMinify t.data) = "" ∧ trimL t.data ≠ [] then
        Except.error MinifyError.emptyResult
      else Except.ok (String.mk (cssMinify t.data))) = Except.ok out := h
    have hout : out = String.mk (cssMinify t.data) := by
      split at h2
      · exact absurd h2 (by simp)
      · simp only [Except.ok.injEq] at h2
        exact h2.symm
    subst hout
    show List.Chain' noWsPair (cssMinify t.data)
    rw [cssMinify, collapseWs, dropWsAroundPunct]
    exact trimL_chain (dwapF_chain _ _ (collapseWsF_chain _ _))

/-- Witness for C9 at the spec's example input. -/
theorem C9_css_no_ws_runs_witness :
    minify "a   b\n\n c" Language.css = .ok "a b c" ∧
    List.Chain' noWsPair "a b c".data := by
  exact ⟨rfl, C9_css_no_ws_runs "a   b\n\n c" "a b c" rfl⟩

end FormaCheck
